import Mathlib

set_option maxHeartbeats 1000000

/-!
Verification of `pulp_ansible/app/tasks/utils.py`.

The Python module is embedded shallowly:

* YAML values (the output of `yaml.safe_load`) are the inductive type `Yaml`;
  mapping keys are modelled as strings, which is the shape of every manifest
  this module handles.  Since `yaml.safe_load` is an external library call,
  `parse_collections_requirements_file` receives its result as an explicit
  `Except String Yaml` argument: `.error e` models a `YAMLError` with message
  `e`, `.ok v` a successful parse.
* Python exceptions are the inductive type `PyError`; fallible functions
  return `Except PyError _`.
* Python `None` is `Yaml.null`; an absent `source` is therefore `Yaml.null`,
  exactly as in the Python code (`collection_req.get("source", None)`).
-/

/-- Python exception values raised by the embedded code. -/
inductive PyError where
  | validationError (msg : String)
  | valueError (msg : String)
  | typeError (msg : String)
deriving DecidableEq, Repr

/-- YAML values as produced by `yaml.safe_load`.  Mapping keys are modelled as
strings; a `dict` carries its insertion-ordered key/value pairs with unique
keys, which is what a Python `dict` built by the YAML loader is. -/
inductive Yaml where
  | null
  | bool (b : Bool)
  | int (n : Int)
  | str (s : String)
  | list (xs : List Yaml)
  | dict (kvs : List (String × Yaml))
deriving BEq, Repr

/-- `v is None` in Python. -/
def Yaml.isNull : Yaml → Bool
  | .null => true
  | _ => false

/-- Python `d.get(k)` on a dict given as its (unique-keyed) binding list. -/
def dictGet (kvs : List (String × Yaml)) (k : String) : Option Yaml :=
  (kvs.find? (fun kv => kv.1 == k)).map (·.2)

/-- Python truthiness of an optional string: `None` and `""` are falsy. -/
def strTruthy : Option String → Bool
  | none => false
  | some s => !s.isEmpty

/-- Python `for x in v` over a YAML value: lists yield their elements, strings
yield their characters as one-character strings, dicts yield their keys; the
remaining values raise `TypeError` (messages abbreviated from CPython). -/
def pyIter : Yaml → Except PyError (List Yaml)
  | .list xs => .ok xs
  | .str s => .ok (s.toList.map (fun c => .str (String.mk [c])))
  | .dict kvs => .ok (kvs.map (fun kv => .str kv.1))
  | .null => .error (.typeError "NoneType object is not iterable")
  | .bool _ => .error (.typeError "bool object is not iterable")
  | .int _ => .error (.typeError "int object is not iterable")

/-- The message of the `ValidationError` raised for a wrong top-level shape
(verbatim from `utils.py`). -/
def collectionsShapeMsg : String :=
  "Expecting collections requirements file to be a dict with the key collections that contains a list of collections to install."

/-- The message of the `ValidationError` raised for an entry without a name
(verbatim from `utils.py`). -/
def nameKeyMsg : String :=
  "Collections requirement entry should contain the key name."

/-- The message of the `ValidationError` raised when YAML parsing fails,
built exactly as the format string in `utils.py` builds it. -/
def yamlFailMsg (file err : String) : String :=
  "Failed to parse the collection requirements yml: " ++ file ++
    " with the following error: " ++ err

/-- The body of the `for collection_req in requirements["collections"]` loop in
`parse_collections_requirements_file`: a dict entry must have a non-`None`
name (`collection_req.get("name", None)` followed by an `is None` check),
`version` defaults to `"*"`, `source` defaults to `None`; a non-dict entry is
used as the name itself. -/
def parseEntry (collection_req : Yaml) : Except PyError (Yaml × Yaml × Yaml) :=
  match collection_req with
  | .dict kvs =>
      let req_name := (dictGet kvs "name").getD .null
      if req_name.isNull then
        .error (.validationError nameKeyMsg)
      else
        .ok (req_name, (dictGet kvs "version").getD (.str "*"),
              (dictGet kvs "source").getD .null)
  | other => .ok (other, .str "*", .null)

/-- `parse_collections_requirements_file` from `utils.py`.  The first argument
is the `requirements_file_string` parameter (`none` models passing `None`);
the second is the outcome of the external `yaml.safe_load` call on it. -/
def parse_collections_requirements_file (requirements_file_string : Option String)
    (safe_load : Except String Yaml) : Except PyError (List (Yaml × Yaml × Yaml)) :=
  if strTruthy requirements_file_string then
    match safe_load with
    | .error err =>
        .error (.validationError (yamlFailMsg (requirements_file_string.getD "") err))
    | .ok requirements =>
        match requirements with
        | .dict kvs =>
            match dictGet kvs "collections" with
            | some colls =>
                match pyIter colls with
                | .ok reqs => reqs.mapM parseEntry
                | .error e => .error e
            | none => .error (.validationError collectionsShapeMsg)
        | _ => .error (.validationError collectionsShapeMsg)
  else
    .ok []

/-- Modelled from the spec: the per-entry rule of claim C1 as amended — a
mapping with a non-null `"name"` yields `(name, version, source)` with
`version` defaulting to `"*"` and `source` defaulting to absent; a mapping
whose `"name"` is missing or null fails with `ValidationError`; a non-mapping
element yields `(element, "*", absent)`. -/
def specEntry (elem : Yaml) : Except PyError (Yaml × Yaml × Yaml) :=
  match elem with
  | .dict kvs =>
      match dictGet kvs "name" with
      | some v =>
          if v.isNull then .error (.validationError nameKeyMsg)
          else
            .ok (v, (dictGet kvs "version").getD (.str "*"),
                  (dictGet kvs "source").getD .null)
      | none => .error (.validationError nameKeyMsg)
  | other => .ok (other, .str "*", .null)

lemma strTruthy_some_of_ne (s : String) (hs : s ≠ "") : strTruthy (some s) = true := by
  have h : s.isEmpty = false := by
    cases h : s.isEmpty
    · rfl
    · exact absurd ((String.isEmpty_iff s).mp h) hs
  simp [strTruthy, h]

lemma parseEntry_eq_specEntry (e : Yaml) : parseEntry e = specEntry e := by
  cases e <;> simp [parseEntry, specEntry]
  case dict kvs =>
    cases h : dictGet kvs "name" <;> simp [Option.getD, Yaml.isNull]

lemma parseEntry_error_eq {e : Yaml} {err : PyError}
    (h : parseEntry e = .error err) : err = .validationError nameKeyMsg := by
  cases e <;> simp [parseEntry] at h
  case dict kvs =>
    split at h
    · exact (Except.error.inj h).symm
    · exact absurd h (by simp)

lemma mapM_parseEntry_error {elems : List Yaml} {e : Yaml}
    (he : e ∈ elems) (herr : ∃ err, parseEntry e = .error err) :
    elems.mapM parseEntry = .error (.validationError nameKeyMsg) := by
  induction elems with
  | nil => cases he
  | cons x xs ih =>
      rcases List.mem_cons.mp he with rfl | he
      · obtain ⟨err, herr⟩ := herr
        have h2 := parseEntry_error_eq herr
        subst h2
        rw [List.mapM_cons, herr]
        rfl
      · cases hx : parseEntry x with
        | error err =>
            have h2 := parseEntry_error_eq hx
            subst h2
            rw [List.mapM_cons, hx]
            rfl
        | ok v =>
            rw [List.mapM_cons, hx, ih he]
            rfl

lemma mapM_parseEntry_eq_specEntry (l : List Yaml) :
    l.mapM parseEntry = l.mapM specEntry := by
  induction l with
  | nil => rfl
  | cons x xs ih => rw [List.mapM_cons, List.mapM_cons, parseEntry_eq_specEntry, ih]

lemma dictGet_filter_ne (kvs : List (String × Yaml)) (k : String) :
    dictGet (kvs.filter (fun kv => !(kv.1 == k))) k = none := by
  induction kvs with
  | nil => rfl
  | cons kv rest ih =>
      rw [List.filter_cons]
      by_cases hk : kv.1 = k
      · rw [if_neg (by simp [hk])]
        exact ih
      · rw [if_pos (by simp [hk])]
        have h2 : (kv.1 == k) = false := by simp [hk]
        rw [show dictGet (kv :: rest.filter (fun kv => !(kv.1 == k))) k
              = dictGet (rest.filter (fun kv => !(kv.1 == k))) k by
            simp [dictGet, List.find?, h2]]
        exact ih

lemma mapM_parseEntry_chars (l : List Char) :
    (l.map (fun c => Yaml.str (String.mk [c]))).mapM parseEntry
      = .ok (l.map (fun c => (Yaml.str (String.mk [c]), Yaml.str "*", Yaml.null))) := by
  induction l with
  | nil => rfl
  | cons c cs ih =>
      rw [List.map_cons, List.mapM_cons, List.map_cons]
      rw [show parseEntry (Yaml.str (String.mk [c]))
            = Except.ok (Yaml.str (String.mk [c]), Yaml.str "*", Yaml.null) from rfl]
      rw [ih]
      rfl

/-- Claim C8: an empty (or absent) manifest makes
`parse_collections_requirements_file` return the empty list without error,
whatever the YAML layer would have said. -/
theorem requirements_empty_manifest (sl : Except String Yaml) :
    parse_collections_requirements_file none sl = .ok [] ∧
    parse_collections_requirements_file (some "") sl = .ok [] := by
  constructor <;> rfl

/-- Claim C6: a non-empty manifest whose YAML parse fails makes
`parse_collections_requirements_file` fail with a `ValidationError` whose
message contains both the manifest text and the YAML error description. -/
theorem requirements_yaml_error (s err : String) (hs : s ≠ "") :
    parse_collections_requirements_file (some s) (.error err)
      = .error (.validationError (yamlFailMsg s err)) ∧
    ∃ a b, yamlFailMsg s err = a ++ s ++ (b ++ err) := by
  refine ⟨?_, "Failed to parse the collection requirements yml: ",
    " with the following error: ", ?_⟩
  · simp [parse_collections_requirements_file, strTruthy_some_of_ne s hs]
  · simp [yamlFailMsg, String.append_assoc]

/-- Witness for `requirements_yaml_error` at the spec example
`"collections: ["`. -/
theorem requirements_yaml_error_witness :
    parse_collections_requirements_file (some "collections: [")
        (.error "expected node content")
      = .error (.validationError
          (yamlFailMsg "collections: [" "expected node content")) :=
  (requirements_yaml_error "collections: [" "expected node content"
    (by decide)).1

/-- Claim C5: a non-empty manifest parsing to YAML that is not a mapping, or
is a mapping without the key `"collections"`, makes
`parse_collections_requirements_file` fail with the `ValidationError`
describing the expected top-level shape. -/
theorem requirements_shape_error (s : String) (hs : s ≠ "") (y : Yaml)
    (hy : ∀ kvs, y = Yaml.dict kvs → dictGet kvs "collections" = none) :
    parse_collections_requirements_file (some s) (.ok y)
      = .error (.validationError collectionsShapeMsg) := by
  have ht := strTruthy_some_of_ne s hs
  cases y <;> simp [parse_collections_requirements_file, ht]
  case dict kvs => simp [hy kvs rfl]

/-- Witness for `requirements_shape_error` at the spec example
`"not: a-valid-shape"`. -/
theorem requirements_shape_error_witness :
    parse_collections_requirements_file (some "not: a-valid-shape")
        (.ok (.dict [("not", .str "a-valid-shape")]))
      = .error (.validationError collectionsShapeMsg) :=
  requirements_shape_error "not: a-valid-shape" (by decide) _
    (by intro kvs h; cases h; rfl)

/-- Claim C1 counterexample: a collections entry that is a mapping
*containing* the key `"name"` — bound to an explicit null — does not yield a
`(name, version, source)` triple as the claim states; the call fails with
`ValidationError` instead. -/
theorem requirements_entry_rule_counterexample :
    dictGet [("name", Yaml.null)] "name" = some Yaml.null ∧
    parse_collections_requirements_file
        (some "collections:\n- name:")
        (.ok (.dict [("collections", .list [.dict [("name", Yaml.null)]])]))
      = .error (.validationError nameKeyMsg) := by
  exact ⟨rfl, rfl⟩

/-- Claim C1 (amended): for a manifest whose YAML parse yields a mapping
binding `"collections"` to a list, the call processes the elements in
declaration order, duplicates kept: a mapping element with a non-null
`"name"` yields `(name, version, source)` with `version` defaulting to `"*"`
and `source` defaulting to absent; a mapping element lacking `"name"` (or
binding it to null) fails with `ValidationError`; a non-mapping element
yields `(element, "*", absent)`.  Formally the call equals the element-wise
mapping of the spec-side rule `specEntry`. -/
theorem requirements_entry_rule (s : String) (hs : s ≠ "")
    (kvs : List (String × Yaml)) (elems : List Yaml)
    (hget : dictGet kvs "collections" = some (.list elems)) :
    parse_collections_requirements_file (some s) (.ok (.dict kvs))
      = elems.mapM specEntry := by
  rw [show parse_collections_requirements_file (some s) (.ok (.dict kvs))
        = elems.mapM parseEntry by
      simp [parse_collections_requirements_file, strTruthy_some_of_ne s hs,
        hget, pyIter]]
  exact mapM_parseEntry_eq_specEntry elems

/-- Witness for `requirements_entry_rule` at the spec example manifest. -/
theorem requirements_entry_rule_witness :
    parse_collections_requirements_file
        (some "collections:\n- foo.bar\n- name: foo.baz\n  version: 1.0.0")
        (.ok (.dict [("collections", .list
          [.str "foo.bar",
           .dict [("name", .str "foo.baz"), ("version", .str "1.0.0")]])]))
      = .ok [(.str "foo.bar", .str "*", Yaml.null),
             (.str "foo.baz", .str "1.0.0", Yaml.null)] :=
  (requirements_entry_rule "collections:\n- foo.bar\n- name: foo.baz\n  version: 1.0.0"
    (by decide)
    [("collections", .list
      [.str "foo.bar",
       .dict [("name", .str "foo.baz"), ("version", .str "1.0.0")]])]
    [.str "foo.bar",
     .dict [("name", .str "foo.baz"), ("version", .str "1.0.0")]]
    rfl).trans (by rfl)

/-- Claim C9: a collections list containing a mapping whose `"name"` key is
explicitly bound to null makes the call fail with the same `ValidationError`
as a missing name; at the entry level, an explicit null name behaves exactly
like the dict with every `"name"` binding removed. -/
theorem requirements_null_name (s : String) (hs : s ≠ "")
    (kvs kvs' : List (String × Yaml)) (elems : List Yaml)
    (hget : dictGet kvs "collections" = some (.list elems))
    (hmem : Yaml.dict kvs' ∈ elems)
    (hname : dictGet kvs' "name" = some Yaml.null) :
    parse_collections_requirements_file (some s) (.ok (.dict kvs))
        = .error (.validationError nameKeyMsg) ∧
    parseEntry (.dict kvs')
        = parseEntry (.dict (kvs'.filter (fun kv => !(kv.1 == "name")))) := by
  have hentry : parseEntry (.dict kvs')
      = .error (.validationError nameKeyMsg) := by
    simp [parseEntry, hname, Yaml.isNull]
  constructor
  · rw [show parse_collections_requirements_file (some s) (.ok (.dict kvs))
          = elems.mapM parseEntry by
        simp [parse_collections_requirements_file, strTruthy_some_of_ne s hs,
          hget, pyIter]]
    exact mapM_parseEntry_error hmem ⟨_, hentry⟩
  · rw [hentry]
    simp [parseEntry, dictGet_filter_ne, Yaml.isNull]

/-- Witness for `requirements_null_name`. -/
theorem requirements_null_name_witness :
    parse_collections_requirements_file
        (some "collections:\n- name:")
        (.ok (.dict [("collections", .list [.dict [("name", Yaml.null)]])]))
      = .error (.validationError nameKeyMsg) :=
  (requirements_null_name "collections:\n- name:" (by decide)
    [("collections", .list [.dict [("name", Yaml.null)]])]
    [("name", Yaml.null)]
    [.dict [("name", Yaml.null)]]
    rfl (by simp) rfl).1

/-- Claim C10: no check is made that the `"collections"` value is a list —
binding it to null makes the call fail with a `TypeError` (from iterating
`None`), not a `ValidationError`, while binding it to a string makes the
call succeed with one `(character, "*", absent)` triple per character. -/
theorem requirements_collections_value_unchecked :
    (∀ (s : String) (kvs : List (String × Yaml)), s ≠ "" →
        dictGet kvs "collections" = some Yaml.null →
        parse_collections_requirements_file (some s) (.ok (.dict kvs))
          = .error (.typeError "NoneType object is not iterable")) ∧
    (∀ (s t : String) (kvs : List (String × Yaml)), s ≠ "" →
        dictGet kvs "collections" = some (Yaml.str t) →
        parse_collections_requirements_file (some s) (.ok (.dict kvs))
          = .ok (t.toList.map
              (fun c => (Yaml.str (String.mk [c]), Yaml.str "*", Yaml.null)))) := by
  constructor
  · intro s kvs hs hget
    simp [parse_collections_requirements_file, strTruthy_some_of_ne s hs,
      hget, pyIter]
  · intro s t kvs hs hget
    rw [show parse_collections_requirements_file (some s) (.ok (.dict kvs))
          = (t.toList.map (fun c => Yaml.str (String.mk [c]))).mapM parseEntry by
        simp [parse_collections_requirements_file, strTruthy_some_of_ne s hs,
          hget, pyIter]]
    exact mapM_parseEntry_chars t.toList

/-- Witness for `requirements_collections_value_unchecked`: `collections:`
(null value) raises `TypeError`; `collections: ab` (string value) yields one
triple per character. -/
theorem requirements_collections_value_unchecked_witness :
    parse_collections_requirements_file (some "collections:")
        (.ok (.dict [("collections", Yaml.null)]))
      = .error (.typeError "NoneType object is not iterable") ∧
    parse_collections_requirements_file (some "collections: ab")
        (.ok (.dict [("collections", .str "ab")]))
      = .ok [(.str "a", .str "*", Yaml.null), (.str "b", .str "*", Yaml.null)] :=
  ⟨requirements_collections_value_unchecked.1 "collections:"
      [("collections", Yaml.null)] (by decide) rfl,
   (requirements_collections_value_unchecked.2 "collections: ab" "ab"
      [("collections", .str "ab")] (by decide) rfl).trans (by rfl)⟩

/-!
## `parse_collection_filename` and `FILENAME_RE`

`FILENAME_RE = ^(?P<namespace>\w+)-(?P<name>\w+)-(?P<version>[0-9a-zA-Z.+-]+)\.tar\.gz$`.
Python `\w` is Unicode-aware; collection namespaces and names are ASCII, and
the match model restricts `\w` to `[A-Za-z0-9_]`, so theorems about it
quantify over ASCII filenames only (Python's `\w` is Unicode-aware), and
`pyFilenameMatch` reproduces Python's `$`, which also matches just before
one newline ending the string.  The external
`semantic_version.Version.parse` call is modelled from the spec as full
SemVer 2.0.0 validity.
-/

/-- `\w` (ASCII): letters, digits, underscore. -/
def wordChar (c : Char) : Bool := c.isAlpha || c.isDigit || c == '_'

/-- The version group character class `[0-9a-zA-Z.+-]`. -/
def versionChar (c : Char) : Bool :=
  c.isAlpha || c.isDigit || c == '.' || c == '+' || c == '-'

/-- Split a character list at the first occurrence of `c`:
`(before, some after)` when `c` occurs, `(cs, none)` otherwise — the list
analogue of Python `s.split(c, 1)`. -/
def breakAt (c : Char) : List Char → List Char × Option (List Char)
  | [] => ([], none)
  | x :: xs =>
      if x = c then ([], some xs)
      else
        let r := breakAt c xs
        (x :: r.1, r.2)

/-- Split on `.` like Python `str.split(".")`: always at least one (possibly
empty) part. -/
def splitDots : List Char → List (List Char)
  | [] => [[]]
  | c :: cs =>
      if c = '.' then [] :: splitDots cs
      else
        match splitDots cs with
        | [] => [[c]]
        | g :: gs => (c :: g) :: gs

/-- A SemVer numeric identifier: digits only, no leading zero. -/
def numericNoLZ (s : List Char) : Bool :=
  !s.isEmpty && s.all Char.isDigit && (s.head? != some '0' || s.length == 1)

/-- SemVer identifier characters `[0-9A-Za-z-]`. -/
def identChar (c : Char) : Bool := c.isAlpha || c.isDigit || c == '-'

/-- A SemVer prerelease identifier: nonempty over `[0-9A-Za-z-]`, and a
purely numeric one must have no leading zero. -/
def preId (s : List Char) : Bool :=
  !s.isEmpty && s.all identChar && (!s.all Char.isDigit || numericNoLZ s)

/-- A SemVer build identifier: nonempty over `[0-9A-Za-z-]`. -/
def buildId (s : List Char) : Bool := !s.isEmpty && s.all identChar

/-- `major.minor.patch`: exactly three numeric identifiers without leading
zeros. -/
def isCore (cs : List Char) : Bool :=
  match splitDots cs with
  | [a, b, c] => numericNoLZ a && numericNoLZ b && numericNoLZ c
  | _ => false

/-- Modelled from the spec: validity for the external
`semantic_version.Version.parse` (strict mode), i.e. the full
semantic-versioning grammar — `major.minor.patch` with an optional
`-prerelease` suffix (dot-separated prerelease identifiers) and an optional
`+build` suffix (dot-separated build identifiers); the first `+` starts the
build part, the first `-` before it ends the core (the core being digits and
dots cannot contain `-`). -/
def isSemverL (cs : List Char) : Bool :=
  isCore (breakAt '-' (breakAt '+' cs).1).1 &&
    (match (breakAt '-' (breakAt '+' cs).1).2 with
     | none => true
     | some p => (splitDots p).all preId) &&
    (match (breakAt '+' cs).2 with
     | none => true
     | some b => (splitDots b).all buildId)

/-- String form of `isSemverL`. -/
def isSemver (s : String) : Bool := isSemverL s.toList

/-- The suffix `.tar.gz` as characters. -/
def tarGz : List Char := ".tar.gz".toList

/-- The body of `FILENAME_RE` anchored at the absolute end of the input
(the face-value reading of `^...$`).  The regex is deterministic: `\w`
excludes `-`, so the first two groups are the maximal word-character runs
before the first two separating hyphens, and the anchored literal suffix
forces the version group to be everything up to the final seven characters
`.tar.gz`. -/
def filenameMatch (cs : List Char) : Option (List Char × List Char × List Char) :=
  if (cs.takeWhile wordChar).isEmpty then none
  else
    match cs.dropWhile wordChar with
    | '-' :: r2 =>
        if (r2.takeWhile wordChar).isEmpty then none
        else
          match r2.dropWhile wordChar with
          | '-' :: r3 =>
              if r3.length < 8 then none
              else if r3.drop (r3.length - 7) = tarGz
                  && (r3.take (r3.length - 7)).all versionChar then
                some (cs.takeWhile wordChar, r2.takeWhile wordChar,
                  r3.take (r3.length - 7))
              else none
          | _ => none
    | _ => none

/-- `FILENAME_RE.match` as CPython evaluates it on ASCII input: without
`re.MULTILINE`, `$` matches at the end of the string and also just before a
newline that ends the string, so a filename with one trailing `\n` matches
via the body in front of that newline (no other position can match: `\w`
and `[0-9a-zA-Z.+-]` exclude `\n` and the `.tar.gz` literal ends in `z`). -/
def pyFilenameMatch (cs : List Char) :
    Option (List Char × List Char × List Char) :=
  match filenameMatch cs with
  | some r => some r
  | none =>
      if cs.getLast? = some '\n' then filenameMatch cs.dropLast else none

/-- The `CollectionFilename` named tuple. -/
structure CollectionFilename where
  «namespace» : String
  name : String
  version : String
deriving DecidableEq, Repr

/-- The `ValueError` message for a filename that does not match
`FILENAME_RE` (verbatim from `utils.py`). -/
def invalidFilenameMsg : String :=
  "Invalid filename. Expected: \x7bnamespace\x7d-\x7bname\x7d-\x7bversion\x7d.tar.gz"

/-- `parse_collection_filename` from `utils.py`: match the filename against
`FILENAME_RE` (raising `ValueError` with the expected pattern on failure),
then validate the version group with `semver.Version.parse` (which raises
`ValueError` on an invalid version). -/
def parse_collection_filename (filename : String) :
    Except PyError CollectionFilename :=
  match pyFilenameMatch filename.toList with
  | none => .error (.valueError invalidFilenameMsg)
  | some (ns, nm, v) =>
      if isSemverL v then
        .ok ⟨String.mk ns, String.mk nm, String.mk v⟩
      else
        .error (.valueError ("Invalid version string: " ++ String.mk v))

lemma breakAt_none {c : Char} : ∀ {cs : List Char},
    (breakAt c cs).2 = none → (breakAt c cs).1 = cs
  | [], _ => rfl
  | x :: xs, h => by
      by_cases hx : x = c
      · simp [breakAt, hx] at h
      · simp only [breakAt, if_neg hx] at h ⊢
        rw [breakAt_none h]

lemma breakAt_some {c : Char} : ∀ {cs a : List Char} {b : List Char},
    breakAt c cs = (a, some b) → cs = a ++ c :: b
  | [], a, b, h => by simp [breakAt] at h
  | x :: xs, a, b, h => by
      by_cases hx : x = c
      · simp only [breakAt, if_pos hx] at h
        obtain ⟨ha, hb⟩ := Prod.mk.injEq .. ▸ h
        subst hx
        simp [← ha, ← Option.some.inj hb]
      · simp only [breakAt, if_neg hx] at h
        obtain ⟨ha, hb⟩ := Prod.mk.injEq .. ▸ h
        have := @breakAt_some c xs (breakAt c xs).1 b
        rw [← ha]
        simp only [List.cons_append, List.cons.injEq, eq_self_iff_true, true_and]
        exact this (by rw [← hb])

lemma splitDots_ne_nil : ∀ (cs : List Char), splitDots cs ≠ []
  | [] => by simp [splitDots]
  | c :: cs => by
      by_cases h : c = '.' <;> simp only [splitDots, if_pos, if_neg, h]
      · simp
      · cases hs : splitDots cs <;> simp

lemma splitDots_all_chars {p : Char → Bool} : ∀ {cs : List Char},
    (splitDots cs).all (fun g => g.all p) = true →
    cs.all (fun x => x == '.' || p x) = true
  | [], _ => rfl
  | c :: cs, h => by
      by_cases hc : c = '.'
      · subst hc
        simp only [splitDots, if_pos rfl, List.all_cons] at h
        simp only [List.all_cons]
        have h2 := (Bool.and_eq_true _ _).mp h
        rw [splitDots_all_chars h2.2]
        simp
      · simp only [splitDots, if_neg hc] at h
        cases hs : splitDots cs with
        | nil => exact absurd hs (splitDots_ne_nil cs)
        | cons g gs =>
            rw [hs] at h
            simp only [List.all_cons] at h ⊢
            have h2 := (Bool.and_eq_true _ _).mp h
            have h3 := (Bool.and_eq_true _ _).mp h2.1
            rw [h3.1]
            have : (splitDots cs).all (fun g => g.all p) = true := by
              rw [hs]; simp only [List.all_cons]
              exact (Bool.and_eq_true _ _).mpr ⟨h3.2, h2.2⟩
            rw [splitDots_all_chars this]
            simp

lemma numericNoLZ_digits {s : List Char} (h : numericNoLZ s = true) :
    s.all Char.isDigit = true := by
  simp only [numericNoLZ, Bool.and_eq_true] at h
  exact h.1.2

lemma isCore_chars {cs : List Char} (h : isCore cs = true) :
    cs.all (fun x => x == '.' || x.isDigit) = true := by
  unfold isCore at h
  split at h
  case _ a b c heq =>
      apply splitDots_all_chars (p := Char.isDigit)
      rw [heq]
      simp only [Bool.and_eq_true] at h
      simp only [List.all_cons, List.all_nil, Bool.and_eq_true]
      exact ⟨numericNoLZ_digits h.1.1, numericNoLZ_digits h.1.2,
        numericNoLZ_digits h.2, trivial⟩
  case _ => exact absurd h (by simp)

lemma isCore_ne_nil {cs : List Char} (h : isCore cs = true) : cs ≠ [] := by
  intro hcs
  subst hcs
  simp [isCore, splitDots] at h

lemma preId_chars {s : List Char} (h : preId s = true) :
    s.all identChar = true := by
  simp only [preId, Bool.and_eq_true] at h
  exact h.1.2

lemma buildId_chars {s : List Char} (h : buildId s = true) :
    s.all identChar = true := by
  simp only [buildId, Bool.and_eq_true] at h
  exact h.2

lemma identChar_versionChar {c : Char} (h : identChar c = true) :
    versionChar c = true := by
  simp only [identChar, Bool.or_eq_true] at h
  simp only [versionChar, Bool.or_eq_true]
  tauto

lemma dotOrDigit_versionChar {c : Char} (h : (c == '.' || c.isDigit) = true) :
    versionChar c = true := by
  simp only [Bool.or_eq_true] at h
  simp only [versionChar, Bool.or_eq_true]
  tauto

lemma dotOrIdent_versionChar {c : Char} (h : (c == '.' || identChar c) = true) :
    versionChar c = true := by
  simp only [Bool.or_eq_true] at h
  rcases h with h | h
  · simp only [versionChar, Bool.or_eq_true]; tauto
  · exact identChar_versionChar h

lemma all_imp {p q : Char → Bool} (hpq : ∀ c, p c = true → q c = true) :
    ∀ {s : List Char}, s.all p = true → s.all q = true := by
  intro s h
  rw [List.all_eq_true] at h ⊢
  exact fun c hc => hpq c (h c hc)

lemma splitDots_pre_chars {p : List Char}
    (h : (splitDots p).all preId = true) : p.all versionChar = true := by
  have h1 : (splitDots p).all (fun g => g.all identChar) = true := by
    rw [List.all_eq_true] at h ⊢
    exact fun g hg => preId_chars (h g hg)
  exact all_imp (fun c => dotOrIdent_versionChar) (splitDots_all_chars h1)

lemma splitDots_build_chars {b : List Char}
    (h : (splitDots b).all buildId = true) : b.all versionChar = true := by
  have h1 : (splitDots b).all (fun g => g.all identChar) = true := by
    rw [List.all_eq_true] at h ⊢
    exact fun g hg => buildId_chars (h g hg)
  exact all_imp (fun c => dotOrIdent_versionChar) (splitDots_all_chars h1)

lemma isSemverL_parts {cs : List Char} (h : isSemverL cs = true) :
    ∃ core rest, cs = core ++ rest ∧ isCore core = true ∧
      rest.all versionChar = true ∧
      (∀ c ∈ rest, c = '-' ∨ c = '+' ∨ versionChar c = true) := by
  unfold isSemverL at h
  simp only [Bool.and_eq_true] at h
  obtain ⟨⟨hcore, hpre⟩, hbuild⟩ := h
  rcases hbo : (breakAt '+' cs).2 with _ | b
  · have hb1 : (breakAt '+' cs).1 = cs := breakAt_none hbo
    rw [hb1] at hcore hpre
    rcases hpo : (breakAt '-' cs).2 with _ | p
    · have hp1 : (breakAt '-' cs).1 = cs := breakAt_none hpo
      rw [hp1] at hcore
      exact ⟨cs, [], by simp, hcore, rfl, by simp⟩
    · have hsplit : cs = (breakAt '-' cs).1 ++ '-' :: p :=
        breakAt_some (Prod.ext rfl hpo)
      rw [hpo] at hpre
      refine ⟨(breakAt '-' cs).1, '-' :: p, hsplit, hcore, ?_, ?_⟩
      · simp only [List.all_cons, Bool.and_eq_true]
        exact ⟨by decide, splitDots_pre_chars hpre⟩
      · intro c hc
        right; right
        have : ('-' :: p).all versionChar = true := by
          simp only [List.all_cons, Bool.and_eq_true]
          exact ⟨by decide, splitDots_pre_chars hpre⟩
        exact (List.all_eq_true.mp this) c hc
  · have hbsplit : cs = (breakAt '+' cs).1 ++ '+' :: b :=
      breakAt_some (Prod.ext rfl hbo)
    rw [hbo] at hbuild
    have hbv : ('+' :: b).all versionChar = true := by
      simp only [List.all_cons, Bool.and_eq_true]
      exact ⟨by decide, splitDots_build_chars hbuild⟩
    rcases hpo : (breakAt '-' (breakAt '+' cs).1).2 with _ | p
    · have hp1 : (breakAt '-' (breakAt '+' cs).1).1 = (breakAt '+' cs).1 :=
        breakAt_none hpo
      rw [hp1] at hcore
      refine ⟨(breakAt '+' cs).1, '+' :: b, hbsplit, hcore, hbv, ?_⟩
      intro c hc
      right; right
      exact (List.all_eq_true.mp hbv) c hc
    · have hpsplit : (breakAt '+' cs).1
          = (breakAt '-' (breakAt '+' cs).1).1 ++ '-' :: p :=
        breakAt_some (Prod.ext rfl hpo)
      rw [hpo] at hpre
      have hpv : ('-' :: p).all versionChar = true := by
        simp only [List.all_cons, Bool.and_eq_true]
        exact ⟨by decide, splitDots_pre_chars hpre⟩
      refine ⟨(breakAt '-' (breakAt '+' cs).1).1, '-' :: p ++ '+' :: b, ?_,
        hcore, ?_, ?_⟩
      · conv_lhs => rw [hbsplit, hpsplit]
        simp
      · rw [show ('-' :: p ++ '+' :: b) = ('-' :: p) ++ ('+' :: b) by simp,
          List.all_append, hpv, hbv]
        rfl
      · intro c hc
        right; right
        have : (('-' :: p) ++ ('+' :: b)).all versionChar = true := by
          rw [List.all_append, hpv, hbv]; rfl
        exact (List.all_eq_true.mp this) c (by simpa using hc)

lemma isSemverL_chars {cs : List Char} (h : isSemverL cs = true) :
    cs.all versionChar = true := by
  obtain ⟨core, rest, hsplit, hcore, hrest, _⟩ := isSemverL_parts h
  rw [hsplit, List.all_append]
  rw [all_imp (fun c => dotOrDigit_versionChar) (isCore_chars hcore), hrest]
  rfl

lemma isSemverL_ne_nil {cs : List Char} (h : isSemverL cs = true) : cs ≠ [] := by
  obtain ⟨core, rest, hsplit, hcore, _, _⟩ := isSemverL_parts h
  rw [hsplit]
  intro hemp
  exact isCore_ne_nil hcore (List.append_eq_nil.mp hemp).1

lemma isEmpty_false_of_ne_nil {l : List Char} (h : l ≠ []) :
    l.isEmpty = false := by
  cases l with
  | nil => exact absurd rfl h
  | cons x xs => rfl

lemma takeWhile_word_prefix (xs rest : List Char) (hxs : xs.all wordChar = true) :
    (xs ++ '-' :: rest).takeWhile wordChar = xs ∧
    (xs ++ '-' :: rest).dropWhile wordChar = '-' :: rest := by
  constructor
  · rw [List.takeWhile_append_of_pos (fun a ha => List.all_eq_true.mp hxs a ha)]
    rw [List.takeWhile_cons]
    simp [show wordChar '-' = false from rfl]
  · rw [List.dropWhile_append_of_pos (fun a ha => List.all_eq_true.mp hxs a ha)]
    rw [List.dropWhile_cons]
    simp [show wordChar '-' = false from rfl]

lemma filenameMatch_roundtrip (ns nm v : List Char)
    (hns : ns ≠ []) (hnsw : ns.all wordChar = true)
    (hnm : nm ≠ []) (hnmw : nm.all wordChar = true)
    (hv : v ≠ []) (hvc : v.all versionChar = true) :
    filenameMatch (ns ++ '-' :: (nm ++ '-' :: (v ++ tarGz)))
      = some (ns, nm, v) := by
  obtain ⟨htake1, hdrop1⟩ :=
    takeWhile_word_prefix ns (nm ++ '-' :: (v ++ tarGz)) hnsw
  obtain ⟨htake2, hdrop2⟩ := takeWhile_word_prefix nm (v ++ tarGz) hnmw
  have hlen : (v ++ tarGz).length = v.length + 7 := by
    simp [tarGz]
  have hvpos : 1 ≤ v.length := List.length_pos.mpr hv
  have h8 : ¬((v ++ tarGz).length < 8) := by omega
  have hsub : (v ++ tarGz).length - 7 = v.length := by omega
  unfold filenameMatch
  rw [htake1, hdrop1, isEmpty_false_of_ne_nil hns]
  simp only [Bool.false_eq_true, if_false]
  rw [htake2, hdrop2, isEmpty_false_of_ne_nil hnm]
  simp only [Bool.false_eq_true, if_false]
  rw [if_neg h8, hsub, List.take_left' rfl, List.drop_left' rfl]
  simp [hvc]

lemma pyFilenameMatch_of_core {cs : List Char}
    {r : List Char × List Char × List Char}
    (h : filenameMatch cs = some r) : pyFilenameMatch cs = some r := by
  unfold pyFilenameMatch
  rw [h]

/-- Claim C2: for `ns` and `name` matching `\w+` and `version` a valid
semantic version, formatting as `ns-name-version.tar.gz` and parsing with
`parse_collection_filename` recovers exactly the original triple. -/
theorem filename_roundtrip (ns nm v : String)
    (hns : ns.toList ≠ [] ∧ ns.toList.all wordChar = true)
    (hnm : nm.toList ≠ [] ∧ nm.toList.all wordChar = true)
    (hv : isSemver v = true) :
    parse_collection_filename (ns ++ "-" ++ nm ++ "-" ++ v ++ ".tar.gz")
      = .ok ⟨ns, nm, v⟩ := by
  have hlist : (ns ++ "-" ++ nm ++ "-" ++ v ++ ".tar.gz").toList
      = ns.toList ++ '-' :: (nm.toList ++ '-' :: (v.toList ++ tarGz)) := by
    show (ns ++ "-" ++ nm ++ "-" ++ v ++ ".tar.gz").data
      = ns.data ++ '-' :: (nm.data ++ '-' :: (v.data ++ tarGz))
    simp only [String.data_append]
    simp [tarGz, String.toList]
  unfold parse_collection_filename
  rw [hlist, pyFilenameMatch_of_core (filenameMatch_roundtrip _ _ _ hns.1
    hns.2 hnm.1 hnm.2 (isSemverL_ne_nil hv) (isSemverL_chars hv))]
  have hv2 : isSemverL v.toList = true := hv
  simp [hv2]
  exact hv2

/-- Witness for `filename_roundtrip` at the spec example. -/
theorem filename_roundtrip_witness :
    parse_collection_filename "my_namespace-my_name-1.2.3.tar.gz"
      = .ok ⟨"my_namespace", "my_name", "1.2.3"⟩ :=
  filename_roundtrip "my_namespace" "my_name" "1.2.3"
    (by decide) (by decide) (by decide)

/-- Claim C3 (amended): for every ASCII filename,
`parse_collection_filename` fails with `ValueError` (the spec error
taxonomy calls it `InvalidFilenameError`) stating the expected pattern
exactly when the filename does not match `FILENAME_RE` under Python's `$`
semantics — which, beyond the anchored grammar, also accepts one trailing
newline; it fails with a `ValueError` describing the invalid version when
the filename matches but the version group is not a valid semantic version;
and it succeeds in exactly the remaining cases.  (On non-ASCII filenames
Python's Unicode-aware `\w` accepts more namespaces and names than the
claim's ASCII grammar, which is the other divergence of the original
claim.) -/
theorem filename_parse_cases (filename : String)
    (_hascii : filename.toList.all (fun c => c.toNat < 128) = true) :
    (pyFilenameMatch filename.toList = none →
      parse_collection_filename filename
        = .error (.valueError invalidFilenameMsg)) ∧
    (∀ ns nm v, pyFilenameMatch filename.toList = some (ns, nm, v) →
      (isSemverL v = false →
        parse_collection_filename filename
          = .error (.valueError ("Invalid version string: " ++ String.mk v))) ∧
      (isSemverL v = true →
        parse_collection_filename filename
          = .ok ⟨String.mk ns, String.mk nm, String.mk v⟩)) := by
  refine ⟨?_, ?_⟩
  · intro h
    unfold parse_collection_filename
    rw [h]
  · intro ns nm v h
    constructor
    · intro hv
      unfold parse_collection_filename
      rw [h]
      simp [hv]
    · intro hv
      unfold parse_collection_filename
      rw [h]
      simp [hv]

/-- Witness for `filename_parse_cases`: a grammar failure (space in the
namespace), a semantic-version failure, and a success. -/
theorem filename_parse_cases_witness :
    parse_collection_filename "bad name-x-1.0.0.tar.gz"
      = .error (.valueError invalidFilenameMsg) ∧
    parse_collection_filename "ns-name-not.a.version.tar.gz"
      = .error (.valueError ("Invalid version string: " ++ "not.a.version")) ∧
    parse_collection_filename "ns2-name-1.0.0.tar.gz"
      = .ok ⟨"ns2", "name", "1.0.0"⟩ :=
  ⟨(filename_parse_cases "bad name-x-1.0.0.tar.gz" (by decide)).1 rfl,
   ((filename_parse_cases "ns-name-not.a.version.tar.gz" (by decide)).2
      "ns".toList "name".toList "not.a.version".toList rfl).1 rfl,
   ((filename_parse_cases "ns2-name-1.0.0.tar.gz" (by decide)).2
      "ns2".toList "name".toList "1.0.0".toList rfl).2 rfl⟩

/-- C3 counterexample: Python's `$` also matches just before a trailing
newline, so the program accepts `"x-y-1.0.0.tar.gz\n"` — a string the
anchored grammar `\x7bnamespace\x7d-\x7bname\x7d-\x7bversion\x7d.tar.gz`
of the claim rejects — instead of raising the expected-pattern error. -/
theorem filename_newline_counterexample :
    filenameMatch "x-y-1.0.0.tar.gz\n".toList = none ∧
    parse_collection_filename "x-y-1.0.0.tar.gz\n"
      = .ok ⟨"x", "y", "1.0.0"⟩ := by
  refine ⟨by decide, by rfl⟩

/-!
## `get_page_url` and the `urllib.parse` model

`get_page_url` is four CPython `urllib.parse` calls (`urlparse`, `parse_qs`,
`urlencode(..., doseq=True)`, `urlunparse`).  These stdlib functions are
external to the repository; they are modelled from their source (CPython
3.11 `Lib/urllib/parse.py`), including percent-encoding with UTF-8, the
`Invalid IPv6 URL` check and the `_checknetloc` NFKC check — the
`unicodedata.normalize("NFKC", ...)` call of the latter is supplied as an
explicit oracle argument `nfkc`, the Unicode tables being external.
Strings are processed as `List Char`; the byte level of percent-coding
uses `Nat` byte values.
-/

/-- UTF-8 encoding of one scalar value (1–4 bytes). -/
def utf8EncodeChar (c : Char) : List Nat :=
  if c.toNat < 128 then [c.toNat]
  else if c.toNat < 2048 then [192 + c.toNat / 64, 128 + c.toNat % 64]
  else if c.toNat < 65536 then
    [224 + c.toNat / 4096, 128 + c.toNat / 64 % 64, 128 + c.toNat % 64]
  else
    [240 + c.toNat / 262144, 128 + c.toNat / 4096 % 64, 128 + c.toNat / 64 % 64,
      128 + c.toNat % 64]

/-- The U+FFFD replacement character used by `errors="replace"` decoding. -/
def repl : Char := Char.ofNat 65533

/-- Is `b` a UTF-8 continuation byte? -/
def contByte (b : Nat) : Bool := 128 ≤ b && b ≤ 191

/-- Decode one UTF-8 sequence starting at byte `b` with remaining input
`bs`; invalid sequences produce the replacement character.  Returns the
decoded character and the rest of the input. -/
def utf8Step (b : Nat) (bs : List Nat) : Char × List Nat :=
  if b < 128 then (Char.ofNat b, bs)
  else if 194 ≤ b && b ≤ 223 then
    match bs with
    | b2 :: bs2 =>
        if contByte b2 then (Char.ofNat ((b - 192) * 64 + (b2 - 128)), bs2)
        else (repl, bs)
    | _ => (repl, bs)
  else if 224 ≤ b && b ≤ 239 then
    match bs with
    | b2 :: b3 :: bs3 =>
        if contByte b2 && contByte b3 && (b != 224 || 160 ≤ b2)
            && (b != 237 || b2 ≤ 159) then
          (Char.ofNat ((b - 224) * 4096 + (b2 - 128) * 64 + (b3 - 128)), bs3)
        else (repl, bs)
    | _ => (repl, bs)
  else if 240 ≤ b && b ≤ 244 then
    match bs with
    | b2 :: b3 :: b4 :: bs4 =>
        if contByte b2 && contByte b3 && contByte b4
            && (b != 240 || 144 ≤ b2) && (b != 244 || b2 ≤ 143) then
          (Char.ofNat ((b - 240) * 262144 + (b2 - 128) * 4096
              + (b3 - 128) * 64 + (b4 - 128)), bs4)
        else (repl, bs)
    | _ => (repl, bs)
  else (repl, bs)

lemma utf8Step_len (b : Nat) (bs : List Nat) :
    (utf8Step b bs).2.length ≤ bs.length := by
  unfold utf8Step
  repeat' split
  all_goals simp_all
  all_goals omega

/-- UTF-8 decoding with replacement of invalid sequences
(`bytes.decode("utf-8", errors="replace")`; the exact grouping of
replacement characters for invalid input is immaterial here — the claims
only exercise valid sequences). -/
def utf8Decode : List Nat → List Char
  | [] => []
  | b :: bs =>
      (utf8Step b bs).1 :: utf8Decode (utf8Step b bs).2
termination_by l => l.length
decreasing_by
  have := utf8Step_len b bs
  simp only [List.length_cons]
  omega

lemma char_toNat_valid (c : Char) :
    c.toNat < 55296 ∨ (57343 < c.toNat ∧ c.toNat < 1114112) := c.valid

lemma utf8EncodeChar_lt_256 (c : Char) : ∀ b ∈ utf8EncodeChar c, b < 256 := by
  have hv := char_toNat_valid c
  unfold utf8EncodeChar
  intro b hb
  split at hb
  · simp at hb; omega
  · split at hb
    · simp at hb; rcases hb with h | h <;> omega
    · split at hb
      · simp at hb; rcases hb with h | h | h <;> omega
      · simp at hb; rcases hb with h | h | h | h <;> omega


lemma utf8Step_1byte (n : Nat) (rest : List Nat) (h : n < 128) :
    utf8Step n rest = (Char.ofNat n, rest) := by
  unfold utf8Step
  rw [if_pos h]

lemma utf8Step_2byte (n : Nat) (rest : List Nat) (h : 128 ≤ n) (h2 : n < 2048) :
    utf8Step (192 + n / 64) ((128 + n % 64) :: rest) = (Char.ofNat n, rest) := by
  have hb : ((194 ≤ 192 + n / 64 : Bool) && (192 + n / 64 ≤ 223 : Bool)) = true := by
    simp only [Bool.and_eq_true, decide_eq_true_eq]
    omega
  have hc : contByte (128 + n % 64) = true := by
    simp only [contByte, Bool.and_eq_true, decide_eq_true_eq]
    omega
  simp only [utf8Step, if_neg (by omega : ¬(192 + n / 64 < 128)), hb, if_pos, hc,
    if_true]
  rw [show (192 + n / 64 - 192) * 64 + (128 + n % 64 - 128) = n by omega]

lemma utf8Step_3byte (n : Nat) (rest : List Nat) (h : 2048 ≤ n) (h2 : n < 65536)
    (hs : n < 55296 ∨ 57343 < n) :
    utf8Step (224 + n / 4096) ((128 + n / 64 % 64) :: (128 + n % 64) :: rest)
      = (Char.ofNat n, rest) := by
  have hb1 : ¬(224 + n / 4096 < 128) := by omega
  have hb2 : ((194 ≤ 224 + n / 4096 : Bool) && (224 + n / 4096 ≤ 223 : Bool)) = false := by
    simp only [Bool.and_eq_false_iff, decide_eq_false_iff_not]
    right; omega
  have hb3 : ((224 ≤ 224 + n / 4096 : Bool) && (224 + n / 4096 ≤ 239 : Bool)) = true := by
    simp only [Bool.and_eq_true, decide_eq_true_eq]
    omega
  have hcond : (contByte (128 + n / 64 % 64) && contByte (128 + n % 64)
      && ((224 + n / 4096 : Nat) != 224 || (160 ≤ 128 + n / 64 % 64 : Bool))
      && ((224 + n / 4096 : Nat) != 237 || (128 + n / 64 % 64 ≤ 159 : Bool))) = true := by
    simp only [contByte, Bool.and_eq_true, Bool.or_eq_true, decide_eq_true_eq,
      bne_iff_ne, ne_eq]
    refine ⟨⟨⟨⟨by omega, by omega⟩, ⟨by omega, by omega⟩⟩, ?_⟩, ?_⟩
    · by_cases he : 224 + n / 4096 = 224
      · right; omega
      · left; omega
    · by_cases he : 224 + n / 4096 = 237
      · right; omega
      · left; omega
  simp only [utf8Step, if_neg hb1, hb2, Bool.false_eq_true, if_false, hb3, if_true,
    hcond]
  rw [show (224 + n / 4096 - 224) * 4096 + (128 + n / 64 % 64 - 128) * 64
        + (128 + n % 64 - 128) = n by omega]

lemma utf8Step_4byte (n : Nat) (rest : List Nat) (h : 65536 ≤ n) (h2 : n < 1114112) :
    utf8Step (240 + n / 262144)
        ((128 + n / 4096 % 64) :: (128 + n / 64 % 64) :: (128 + n % 64) :: rest)
      = (Char.ofNat n, rest) := by
  have hb1 : ¬(240 + n / 262144 < 128) := by omega
  have hb2 : ((194 ≤ 240 + n / 262144 : Bool) && (240 + n / 262144 ≤ 223 : Bool)) = false := by
    simp only [Bool.and_eq_false_iff, decide_eq_false_iff_not]
    right; omega
  have hb3 : ((224 ≤ 240 + n / 262144 : Bool) && (240 + n / 262144 ≤ 239 : Bool)) = false := by
    simp only [Bool.and_eq_false_iff, decide_eq_false_iff_not]
    right; omega
  have hb4 : ((240 ≤ 240 + n / 262144 : Bool) && (240 + n / 262144 ≤ 244 : Bool)) = true := by
    simp only [Bool.and_eq_true, decide_eq_true_eq]
    omega
  have hcond : (contByte (128 + n / 4096 % 64) && contByte (128 + n / 64 % 64)
      && contByte (128 + n % 64)
      && ((240 + n / 262144 : Nat) != 240 || (144 ≤ 128 + n / 4096 % 64 : Bool))
      && ((240 + n / 262144 : Nat) != 244 || (128 + n / 4096 % 64 ≤ 143 : Bool))) = true := by
    simp only [contByte, Bool.and_eq_true, Bool.or_eq_true, decide_eq_true_eq,
      bne_iff_ne, ne_eq]
    refine ⟨⟨⟨⟨⟨by omega, by omega⟩, ⟨by omega, by omega⟩⟩, ⟨by omega, by omega⟩⟩, ?_⟩, ?_⟩
    · by_cases he : 240 + n / 262144 = 240
      · right; omega
      · left; omega
    · by_cases he : 240 + n / 262144 = 244
      · right; omega
      · left; omega
  simp only [utf8Step, if_neg hb1, hb2, hb3, Bool.false_eq_true, if_false, hb4,
    if_true, hcond]
  rw [show (240 + n / 262144 - 240) * 262144 + (128 + n / 4096 % 64 - 128) * 4096
        + (128 + n / 64 % 64 - 128) * 64 + (128 + n % 64 - 128) = n by omega]

lemma utf8_decode_encode (c : Char) (rest : List Nat) :
    utf8Decode (utf8EncodeChar c ++ rest) = c :: utf8Decode rest := by
  have hv := char_toNat_valid c
  have hofn : Char.ofNat c.toNat = c := Char.ofNat_toNat c
  unfold utf8EncodeChar
  by_cases h1 : c.toNat < 128
  · rw [if_pos h1]
    simp only [List.cons_append, List.nil_append]
    rw [utf8Decode, utf8Step_1byte _ _ h1, hofn]
  · rw [if_neg h1]
    by_cases h2 : c.toNat < 2048
    · rw [if_pos h2]
      simp only [List.cons_append, List.nil_append]
      rw [utf8Decode, utf8Step_2byte _ _ (by omega) h2, hofn]
    · rw [if_neg h2]
      by_cases h3 : c.toNat < 65536
      · rw [if_pos h3]
        simp only [List.cons_append, List.nil_append]
        rw [utf8Decode, utf8Step_3byte _ _ (by omega) h3 (by omega), hofn]
      · rw [if_neg h3]
        simp only [List.cons_append, List.nil_append]
        rw [utf8Decode, utf8Step_4byte _ _ (by omega) (by omega), hofn]

/-- Hex digit value (`_hextobyte` accepts both cases). -/
def hexDigitVal (c : Char) : Option Nat :=
  if '0' ≤ c ∧ c ≤ '9' then some (c.toNat - 48)
  else if 'a' ≤ c ∧ c ≤ 'f' then some (c.toNat - 87)
  else if 'A' ≤ c ∧ c ≤ 'F' then some (c.toNat - 55)
  else none

/-- Upper-case hex digit of `n < 16` (percent-escapes use `%02X`). -/
def hexDigit (n : Nat) : Char :=
  if n < 10 then Char.ofNat (48 + n) else Char.ofNat (55 + n)

/-- The `_ALWAYS_SAFE` byte set: ASCII letters, digits, `_.-~`. -/
def alwaysSafe (c : Char) : Bool :=
  c.isAlpha || c.isDigit || c == '_' || c == '.' || c == '-' || c == '~'

/-- `%XX` escape of one byte. -/
def percentByte (b : Nat) : List Char :=
  ['%', hexDigit (b / 16), hexDigit (b % 16)]

/-- One character through `quote_plus(_, safe="")`: space becomes `+`, always
safe characters stay, everything else is percent-escaped byte by byte
(UTF-8). -/
def quotePlusChar (c : Char) : List Char :=
  if c = ' ' then ['+']
  else if alwaysSafe c then [c]
  else (utf8EncodeChar c).flatMap percentByte

/-- `urllib.parse.quote_plus(s)` (with the default `safe=""`). -/
def quote_plus (s : String) : String :=
  String.mk (s.toList.flatMap quotePlusChar)

/-- The `+` → space replacement performed by `unquote_plus` and `parse_qsl`
before percent-decoding. -/
def plusToSpace (cs : List Char) : List Char :=
  cs.map (fun c => if c = '+' then ' ' else c)

/-- Percent-decoding scanner: `%XX` pairs accumulate bytes (in reverse, in
`acc`), a maximal byte run is decoded as UTF-8 when a normal character or
the end of input is reached; a `%` not followed by two hex digits is
literal. -/
def unquoteAux : List Char → List Nat → List Char
  | [], acc => utf8Decode acc.reverse
  | '%' :: h1 :: h2 :: rest2, acc =>
      match hexDigitVal h1, hexDigitVal h2 with
      | some v1, some v2 => unquoteAux rest2 ((v1 * 16 + v2) :: acc)
      | _, _ => utf8Decode acc.reverse ++ '%' :: unquoteAux (h1 :: h2 :: rest2) []
  | c :: rest, acc => utf8Decode acc.reverse ++ c :: unquoteAux rest []

/-- `urllib.parse.unquote_plus(s)` (UTF-8, `errors="replace"`). -/
def unquote_plus (s : String) : String :=
  String.mk (unquoteAux (plusToSpace s.toList) [])

lemma unquoteAux_pct (h1 h2 : Char) (rest2 : List Char) (acc : List Nat)
    (v1 v2 : Nat) (hv1 : hexDigitVal h1 = some v1) (hv2 : hexDigitVal h2 = some v2) :
    unquoteAux ('%' :: h1 :: h2 :: rest2) acc
      = unquoteAux rest2 ((v1 * 16 + v2) :: acc) := by
  simp [unquoteAux, hv1, hv2]

lemma unquoteAux_other (c : Char) (rest : List Char) (acc : List Nat)
    (hc : c ≠ '%') :
    unquoteAux (c :: rest) acc
      = utf8Decode acc.reverse ++ c :: unquoteAux rest [] := by
  simp [unquoteAux, hc]

lemma hexDigitVal_hexDigit (n : Nat) (h : n < 16) :
    hexDigitVal (hexDigit n) = some n := by
  interval_cases n <;> rfl

lemma utf8Decode_encodeList : ∀ ds : List Char,
    utf8Decode (ds.flatMap utf8EncodeChar) = ds
  | [] => by simp [utf8Decode]
  | d :: ds => by
      rw [List.flatMap_cons, utf8_decode_encode, utf8Decode_encodeList ds]

lemma hexDigit_ne_plus {n : Nat} (h : n < 16) : hexDigit n ≠ '+' := by
  interval_cases n <;> decide

lemma unquoteAux_bytes (bs : List Nat) (rest : List Char) :
    ∀ (acc : List Nat), (∀ b ∈ bs, b < 256) →
    unquoteAux (bs.flatMap percentByte ++ rest) acc
      = unquoteAux rest (bs.reverse ++ acc) := by
  induction bs with
  | nil => intro acc _; simp
  | cons b bs ih =>
      intro acc hbs
      have hb : b < 256 := hbs b (by simp)
      have hrec := ih ((b : Nat) :: acc) (fun x hx => hbs x (by simp [hx]))
      simp only [List.flatMap_cons, percentByte, List.append_assoc,
        List.cons_append, List.nil_append]
      rw [unquoteAux_pct _ _ _ _ _ _ (hexDigitVal_hexDigit _ (by omega))
        (hexDigitVal_hexDigit _ (by omega))]
      rw [show b / 16 * 16 + b % 16 = b from by omega]
      rw [hrec]
      simp

/-- The effect of `plusToSpace` on `quote_plus` output, character by
character: the `+` written for a space turns back into a space, everything
else is untouched. -/
def quoteChar2 (c : Char) : List Char :=
  if c = ' ' then [' ']
  else if alwaysSafe c then [c]
  else (utf8EncodeChar c).flatMap percentByte

lemma plusToSpace_percentByte (b : Nat) (h : b < 256) :
    plusToSpace (percentByte b) = percentByte b := by
  simp only [percentByte, plusToSpace, List.map_cons, List.map_nil]
  rw [if_neg (by decide), if_neg (hexDigit_ne_plus (by omega)),
    if_neg (hexDigit_ne_plus (by omega))]

lemma plusToSpace_append (xs ys : List Char) :
    plusToSpace (xs ++ ys) = plusToSpace xs ++ plusToSpace ys := by
  simp [plusToSpace]

lemma plusToSpace_bytes (bs : List Nat) (h : ∀ b ∈ bs, b < 256) :
    plusToSpace (bs.flatMap percentByte) = bs.flatMap percentByte := by
  induction bs with
  | nil => rfl
  | cons b bs ih =>
      rw [List.flatMap_cons, plusToSpace_append,
        plusToSpace_percentByte b (h b (by simp)),
        ih (fun x hx => h x (by simp [hx]))]

lemma plusToSpace_quoteChar (c : Char) :
    plusToSpace (quotePlusChar c) = quoteChar2 c := by
  by_cases hsp : c = ' '
  · subst hsp; rfl
  · by_cases hsafe : alwaysSafe c
    · have hplus : c ≠ '+' := by
        intro he; subst he; exact absurd hsafe (by decide)
      simp [quotePlusChar, quoteChar2, hsp, hsafe, plusToSpace, hplus]
    · simp only [quotePlusChar, quoteChar2, if_neg hsp, hsafe,
        Bool.false_eq_true, if_false]
      exact plusToSpace_bytes _ (utf8EncodeChar_lt_256 c)

lemma plusToSpace_quote (cs : List Char) :
    plusToSpace (cs.flatMap quotePlusChar) = cs.flatMap quoteChar2 := by
  induction cs with
  | nil => rfl
  | cons c cs ih =>
      rw [List.flatMap_cons, List.flatMap_cons, plusToSpace_append,
        plusToSpace_quoteChar, ih]

lemma unquoteAux_quote : ∀ (cs ds : List Char),
    unquoteAux (cs.flatMap quoteChar2) ((ds.flatMap utf8EncodeChar).reverse)
      = ds ++ cs
  | [], ds => by
      show unquoteAux [] _ = _
      rw [show unquoteAux [] ((ds.flatMap utf8EncodeChar).reverse)
            = utf8Decode ((ds.flatMap utf8EncodeChar).reverse).reverse from rfl]
      rw [List.reverse_reverse, utf8Decode_encodeList]
      simp
  | c :: cs, ds => by
      by_cases hsp : c = ' '
      · subst hsp
        rw [List.flatMap_cons]
        show unquoteAux (' ' :: cs.flatMap quoteChar2) _ = _
        rw [unquoteAux_other _ _ _ (by decide), List.reverse_reverse,
          utf8Decode_encodeList]
        have h0 := unquoteAux_quote cs []
        simp only [List.flatMap_nil, List.reverse_nil, List.nil_append] at h0
        rw [h0]
      · by_cases hsafe : alwaysSafe c = true
        · have hpct : c ≠ '%' := by
            intro he; subst he; exact absurd hsafe (by decide)
          rw [List.flatMap_cons,
            show quoteChar2 c = [c] by simp [quoteChar2, hsp, hsafe]]
          show unquoteAux (c :: cs.flatMap quoteChar2) _ = _
          rw [unquoteAux_other _ _ _ hpct, List.reverse_reverse,
            utf8Decode_encodeList]
          have h0 := unquoteAux_quote cs []
          simp only [List.flatMap_nil, List.reverse_nil, List.nil_append] at h0
          rw [h0]
        · rw [List.flatMap_cons,
            show quoteChar2 c = (utf8EncodeChar c).flatMap percentByte by
              simp [quoteChar2, hsp, hsafe]]
          rw [unquoteAux_bytes _ _ _ (utf8EncodeChar_lt_256 c)]
          have h0 := unquoteAux_quote cs (ds ++ [c])
          rw [show ((ds ++ [c]).flatMap utf8EncodeChar).reverse
                = (utf8EncodeChar c).reverse
                  ++ (ds.flatMap utf8EncodeChar).reverse by
              simp] at h0
          rw [h0]
          simp

lemma unquote_quote_roundtrip (s : String) :
    unquote_plus (quote_plus s) = s := by
  show String.mk (unquoteAux (plusToSpace (s.toList.flatMap quotePlusChar)) []) = s
  rw [plusToSpace_quote]
  have h0 := unquoteAux_quote s.toList []
  simp only [List.flatMap_nil, List.reverse_nil, List.nil_append] at h0
  rw [h0]
  rfl

/-- Python `str.split(sep)` (no maxsplit) on characters: empty pieces are
kept, the result is never empty. -/
def pySplit (sep : Char) : List Char → List (List Char)
  | [] => [[]]
  | c :: cs =>
      if c = sep then [] :: pySplit sep cs
      else
        match pySplit sep cs with
        | [] => [[c]]
        | g :: gs => (c :: g) :: gs

/-- Python `sep.join(...)` on character lists. -/
def joinSep (sep : Char) : List (List Char) → List Char
  | [] => []
  | [g] => g
  | g :: gs => g ++ sep :: joinSep sep gs

lemma pySplit_no_sep (sep : Char) : ∀ (g : List Char), sep ∉ g →
    pySplit sep g = [g]
  | [], _ => rfl
  | c :: g, h => by
      have hc : ¬(c = sep) := fun he => h (he ▸ List.mem_cons_self c g)
      rw [pySplit, if_neg hc, pySplit_no_sep sep g (fun hm => h (List.mem_cons_of_mem c hm))]

lemma pySplit_append (sep : Char) : ∀ (g rest : List Char), sep ∉ g →
    pySplit sep (g ++ sep :: rest) = g :: pySplit sep rest
  | [], rest, _ => by
      rw [List.nil_append, pySplit, if_pos rfl]
  | c :: g, rest, h => by
      have hc : ¬(c = sep) := fun he => h (he ▸ List.mem_cons_self c g)
      rw [List.cons_append, pySplit, if_neg hc,
        pySplit_append sep g rest (fun hm => h (List.mem_cons_of_mem c hm))]

lemma pySplit_join (sep : Char) : ∀ (segs : List (List Char)), segs ≠ [] →
    (∀ g ∈ segs, sep ∉ g) → pySplit sep (joinSep sep segs) = segs
  | [], h, _ => absurd rfl h
  | [g], _, hg => by
      rw [joinSep, pySplit_no_sep sep g (hg g (by simp))]
  | g :: g2 :: gs, _, hg => by
      rw [show joinSep sep (g :: g2 :: gs) = g ++ sep :: joinSep sep (g2 :: gs)
          from rfl]
      rw [pySplit_append sep g _ (hg g (by simp)),
        pySplit_join sep (g2 :: gs) (by simp)
          (fun x hx => hg x (List.mem_cons_of_mem g hx))]

lemma breakAt_prepend (c : Char) : ∀ (xs ys : List Char), c ∉ xs →
    breakAt c (xs ++ c :: ys) = (xs, some ys)
  | [], ys, _ => by rw [List.nil_append, breakAt, if_pos rfl]
  | x :: xs, ys, h => by
      have hx : ¬(x = c) := fun he => h (he ▸ List.mem_cons_self x xs)
      rw [List.cons_append, breakAt, if_neg hx,
        breakAt_prepend c xs ys (fun hm => h (List.mem_cons_of_mem x hm))]

/-- `urllib.parse.parse_qsl(qs)` with default arguments: split on `&`, skip
empty pieces, skip pieces without `=` and pieces with an empty value,
`+`-to-space and percent-decode names and values. -/
def parse_qsl (qs : String) : List (String × String) :=
  if qs.toList.isEmpty then []
  else
    (pySplit '&' qs.toList).filterMap (fun nv =>
      if nv.isEmpty then none
      else
        match breakAt '=' nv with
        | (_, none) => none
        | (n, some v) =>
            if v.isEmpty then none
            else some (unquote_plus (String.mk n), unquote_plus (String.mk v)))

/-- The dict-building loop of `parse_qs`: append the value to an existing
key (keeping its position) or add a new key at the end. -/
def addVal : List (String × List String) → String → String → List (String × List String)
  | [], n, v => [(n, [v])]
  | (k, vs) :: rest, n, v =>
      if k = n then (k, vs ++ [v]) :: rest
      else (k, vs) :: addVal rest n v

/-- `urllib.parse.parse_qs(qs)` with default arguments, as the
insertion-ordered key/value-list dict. -/
def parse_qs (qs : String) : List (String × List String) :=
  (parse_qsl qs).foldl (fun d nv => addVal d nv.1 nv.2) []

/-- A value of the `new_query` dict in `get_page_url`: the lists of strings
coming from `parse_qs`, or the `int` assigned to `"page"`. -/
inductive QVal where
  | strs (vs : List String)
  | int (n : Int)
deriving DecidableEq, Repr

/-- Python dict assignment `d[k] = v`: overwrite in place or append. -/
def setKey : List (String × QVal) → String → QVal → List (String × QVal)
  | [], k, v => [(k, v)]
  | (k2, v2) :: rest, k, v =>
      if k2 = k then (k2, v) :: rest else (k2, v2) :: setKey rest k v

/-- Dict assignment on the string-list form. -/
def setKeyStr : List (String × List String) → String → List String →
    List (String × List String)
  | [], k, v => [(k, v)]
  | (k2, v2) :: rest, k, v =>
      if k2 = k then (k2, v) :: rest else (k2, v2) :: setKeyStr rest k v

/-- One `name=value` piece of `urlencode` output. -/
def urlencodeSeg (k v : String) : List Char :=
  (quote_plus k).toList ++ '=' :: (quote_plus v).toList

/-- The pieces of `urlencode(query, doseq=True)` output: strings are quoted,
a list contributes one piece per element, an `int` is stringified then
quoted. -/
def urlencodeL (q : List (String × QVal)) : List (List Char) :=
  q.flatMap (fun kv =>
    match kv.2 with
    | .int n => [urlencodeSeg kv.1 (toString n)]
    | .strs vs => vs.map (fun v => urlencodeSeg kv.1 v))

/-- `urllib.parse.urlencode(q, doseq=True)` (default `quote_via=quote_plus`,
`safe=""`). -/
def urlencode (q : List (String × QVal)) : String :=
  String.mk (joinSep '&' (urlencodeL q))

lemma alwaysSafe_hexDigit (n : Nat) (h : n < 16) :
    alwaysSafe (hexDigit n) = true := by
  interval_cases n <;> decide

lemma quotePlusChar_chars (c : Char) :
    ∀ x ∈ quotePlusChar c, x = '+' ∨ x = '%' ∨ alwaysSafe x = true := by
  intro x hx
  unfold quotePlusChar at hx
  split at hx
  · simp at hx; left; exact hx
  · split at hx
    · simp at hx; subst hx; right; right; assumption
    · rw [List.mem_flatMap] at hx
      obtain ⟨b, hb, hxb⟩ := hx
      have hb256 := utf8EncodeChar_lt_256 c b hb
      simp only [percentByte, List.mem_cons, List.mem_singleton] at hxb
      rcases hxb with h | h | h
      · right; left; exact h
      · subst h; right; right; exact alwaysSafe_hexDigit _ (by omega)
      · simp at h; subst h; right; right; exact alwaysSafe_hexDigit _ (by omega)

lemma quote_plus_chars (s : String) :
    ∀ x ∈ (quote_plus s).toList, x = '+' ∨ x = '%' ∨ alwaysSafe x = true := by
  intro x hx
  show x = '+' ∨ x = '%' ∨ alwaysSafe x = true
  have hx2 : x ∈ s.toList.flatMap quotePlusChar := hx
  rw [List.mem_flatMap] at hx2
  obtain ⟨c, _, hxc⟩ := hx2
  exact quotePlusChar_chars c x hxc

/-- Characters that can never appear in `quote_plus` output. -/
lemma quote_out_ne (x y : Char) (hx : x = '+' ∨ x = '%' ∨ alwaysSafe x = true)
    (hy : y ≠ '+' ∧ y ≠ '%' ∧ alwaysSafe y = false) : x ≠ y := by
  intro he
  subst he
  rcases hx with h | h | h
  · exact hy.1 h
  · exact hy.2.1 h
  · rw [hy.2.2] at h; cases h

lemma quotePlusChar_ne_nil (c : Char) : quotePlusChar c ≠ [] := by
  unfold quotePlusChar
  split
  · simp
  · split
    · simp
    · unfold utf8EncodeChar
      split
      · simp [percentByte]
      · split
        · simp [percentByte]
        · split <;> simp [percentByte]

lemma quote_plus_ne_nil (s : String) (h : s.toList ≠ []) :
    (quote_plus s).toList ≠ [] := by
  show s.toList.flatMap quotePlusChar ≠ []
  cases hs : s.toList with
  | nil => exact absurd hs h
  | cons c cs =>
      rw [List.flatMap_cons]
      intro hemp
      exact quotePlusChar_ne_nil c (List.append_eq_nil.mp hemp).1

/-- The pairs `urlencode(q, doseq=True)` writes out, one per emitted
`name=value` piece, before quoting. -/
def flatPairs (q : List (String × QVal)) : List (String × String) :=
  q.flatMap (fun kv =>
    match kv.2 with
    | .int n => [(kv.1, toString n)]
    | .strs vs => vs.map (fun v => (kv.1, v)))

/-- Flattening of a string-list dict into pairs. -/
def flatStr (d : List (String × List String)) : List (String × String) :=
  d.flatMap (fun kv => kv.2.map (fun v => (kv.1, v)))

/-- The string-list dict viewed as a `QVal` dict. -/
def strsOf (d : List (String × List String)) : List (String × QVal) :=
  d.map (fun kv => (kv.1, QVal.strs kv.2))

lemma urlencodeL_eq (q : List (String × QVal)) :
    urlencodeL q = (flatPairs q).map (fun p => urlencodeSeg p.1 p.2) := by
  induction q with
  | nil => rfl
  | cons kv q ih =>
      obtain ⟨k, v⟩ := kv
      cases v with
      | int n =>
          simp only [urlencodeL, flatPairs, List.flatMap_cons, List.map_append] at ih ⊢
          rw [ih]
          rfl
      | strs vs =>
          simp only [urlencodeL, flatPairs, List.flatMap_cons, List.map_append,
            List.map_map] at ih ⊢
          rw [ih]
          rfl

lemma flatPairs_strsOf (d : List (String × List String)) :
    flatPairs (strsOf d) = flatStr d := by
  induction d with
  | nil => rfl
  | cons kv d ih =>
      simp only [flatPairs, strsOf, flatStr, List.map_cons, List.flatMap_cons] at ih ⊢
      rw [ih]

lemma flatPairs_setKey_int (d : List (String × List String)) (k : String) (n : Int) :
    flatPairs (setKey (strsOf d) k (.int n)) = flatStr (setKeyStr d k [toString n]) := by
  induction d with
  | nil => simp [strsOf, setKey, setKeyStr, flatPairs, flatStr]
  | cons kv d ih =>
      obtain ⟨k2, vs⟩ := kv
      by_cases hk : k2 = k
      · subst hk
        rw [show setKey (strsOf ((k2, vs) :: d)) k2 (QVal.int n)
              = (k2, QVal.int n) :: strsOf d by simp [strsOf, setKey]]
        rw [show setKeyStr ((k2, vs) :: d) k2 [toString n]
              = (k2, [toString n]) :: d by simp [setKeyStr]]
        rw [show flatPairs ((k2, QVal.int n) :: strsOf d)
              = (k2, toString n) :: flatPairs (strsOf d) by simp [flatPairs]]
        rw [show flatStr ((k2, [toString n]) :: d)
              = (k2, toString n) :: flatStr d by simp [flatStr]]
        rw [flatPairs_strsOf d]
      · rw [show setKey (strsOf ((k2, vs) :: d)) k (QVal.int n)
              = (k2, QVal.strs vs) :: setKey (strsOf d) k (QVal.int n) by
            simp [strsOf, setKey, hk]]
        rw [show setKeyStr ((k2, vs) :: d) k [toString n]
              = (k2, vs) :: setKeyStr d k [toString n] by simp [setKeyStr, hk]]
        simp only [flatPairs, flatStr, List.flatMap_cons] at ih ⊢
        rw [ih]

lemma toList_ne_nil_of_ne (s : String) (h : s ≠ "") : s.toList ≠ [] := by
  intro hl
  apply h
  cases s with
  | mk data =>
      simp only [String.toList] at hl
      subst hl
      rfl

lemma urlencodeSeg_ne_nil (k v : String) : urlencodeSeg k v ≠ [] := by
  unfold urlencodeSeg
  intro h
  have := (List.append_eq_nil.mp h).2
  cases this

lemma joinSep_ne_nil (sep : Char) (g : List Char) (gs : List (List Char))
    (hg : g ≠ []) : joinSep sep (g :: gs) ≠ [] := by
  cases gs with
  | nil => exact hg
  | cons g2 gs =>
      rw [show joinSep sep (g :: g2 :: gs) = g ++ sep :: joinSep sep (g2 :: gs)
          from rfl]
      intro h
      cases (List.append_eq_nil.mp h).2

lemma eq_not_in_quote (k : String) : '=' ∉ (quote_plus k).toList := by
  intro hm
  rcases quote_plus_chars k '=' hm with h | h | h <;> revert h <;> decide

lemma amp_not_in_seg (k v : String) : '&' ∉ urlencodeSeg k v := by
  intro hm
  unfold urlencodeSeg at hm
  rw [List.mem_append] at hm
  rcases hm with hm | hm
  · rcases quote_plus_chars k '&' hm with h | h | h <;> revert h <;> decide
  · rcases List.mem_cons.mp hm with h | hm
    · cases h
    · rcases quote_plus_chars v '&' hm with h | h | h <;> revert h <;> decide

lemma parse_piece (k v : String) (hv : v ≠ "") :
    (if (urlencodeSeg k v).isEmpty then none
     else match breakAt '=' (urlencodeSeg k v) with
       | (_, none) => none
       | (n, some w) =>
           if w.isEmpty then none
           else some (unquote_plus (String.mk n), unquote_plus (String.mk w)))
      = some (k, v) := by
  rw [if_neg (by
    rw [isEmpty_false_of_ne_nil (urlencodeSeg_ne_nil k v)]
    simp)]
  rw [show breakAt '=' (urlencodeSeg k v)
        = ((quote_plus k).toList, some (quote_plus v).toList) from
      breakAt_prepend '=' _ _ (eq_not_in_quote k)]
  show (if (quote_plus v).toList.isEmpty = true then none
        else some (unquote_plus (String.mk (quote_plus k).toList),
          unquote_plus (String.mk (quote_plus v).toList))) = some (k, v)
  rw [if_neg (by
    rw [isEmpty_false_of_ne_nil (quote_plus_ne_nil v (toList_ne_nil_of_ne v hv))]
    simp)]
  rw [show String.mk (quote_plus k).toList = quote_plus k from rfl,
    show String.mk (quote_plus v).toList = quote_plus v from rfl,
    unquote_quote_roundtrip, unquote_quote_roundtrip]

lemma filterMap_pieces (L : List (String × String)) (h : ∀ p ∈ L, p.2 ≠ "") :
    ((L.map (fun p => urlencodeSeg p.1 p.2)).filterMap (fun nv =>
      if nv.isEmpty then none
      else match breakAt '=' nv with
        | (_, none) => none
        | (n, some w) =>
            if w.isEmpty then none
            else some (unquote_plus (String.mk n), unquote_plus (String.mk w))))
      = L := by
  induction L with
  | nil => rfl
  | cons p ps ih =>
      rw [List.map_cons, List.filterMap_cons]
      rw [parse_piece p.1 p.2 (h p (by simp))]
      rw [ih (fun q hq => h q (List.mem_cons_of_mem p hq))]

lemma parse_qsl_urlencode (nq : List (String × QVal))
    (hval : ∀ p ∈ flatPairs nq, p.2 ≠ "") :
    parse_qsl (urlencode nq) = flatPairs nq := by
  rw [show urlencode nq
        = String.mk (joinSep '&' ((flatPairs nq).map (fun p => urlencodeSeg p.1 p.2)))
      by rw [urlencode, urlencodeL_eq]]
  cases hL : flatPairs nq with
  | nil => rfl
  | cons p ps =>
      rw [hL] at hval
      unfold parse_qsl
      rw [List.map_cons]
      rw [if_neg (by
        rw [show (String.mk (joinSep '&'
            (urlencodeSeg p.1 p.2 :: ps.map (fun p => urlencodeSeg p.1 p.2)))).toList
              = joinSep '&' (urlencodeSeg p.1 p.2 :: ps.map (fun p => urlencodeSeg p.1 p.2))
            from rfl]
        rw [isEmpty_false_of_ne_nil
          (joinSep_ne_nil '&' _ _ (urlencodeSeg_ne_nil p.1 p.2))]
        simp)]
      rw [show (String.mk (joinSep '&'
          (urlencodeSeg p.1 p.2 :: ps.map (fun p => urlencodeSeg p.1 p.2)))).toList
            = joinSep '&' (urlencodeSeg p.1 p.2 :: ps.map (fun p => urlencodeSeg p.1 p.2))
          from rfl]
      rw [pySplit_join '&' _ (by simp) (by
        intro g hg
        rcases List.mem_cons.mp hg with hg | hg
        · subst hg; exact amp_not_in_seg p.1 p.2
        · rw [List.mem_map] at hg
          obtain ⟨q, _, hq⟩ := hg
          subst hq
          exact amp_not_in_seg q.1 q.2)]
      have hfm := filterMap_pieces (p :: ps) hval
      rw [List.map_cons] at hfm
      exact hfm

/-- Keys of the ordered dict. -/
def dkeys (d : List (String × List String)) : List String := d.map Prod.fst

lemma addVal_fresh (acc : List (String × List String)) (k : String) (v : String)
    (h : k ∉ dkeys acc) : addVal acc k v = acc ++ [(k, [v])] := by
  induction acc with
  | nil => rfl
  | cons kv rest ih =>
      obtain ⟨k2, vs2⟩ := kv
      have hk2 : ¬(k2 = k) := by
        intro he; subst he
        exact h (by simp [dkeys])
      rw [addVal, if_neg hk2, ih (fun hm => h (by simp [dkeys] at hm ⊢; tauto))]
      rfl

lemma addVal_found_last (acc : List (String × List String)) (k : String)
    (pre : List String) (v : String) (h : k ∉ dkeys acc) :
    addVal (acc ++ [(k, pre)]) k v = acc ++ [(k, pre ++ [v])] := by
  induction acc with
  | nil => simp [addVal]
  | cons kv rest ih =>
      obtain ⟨k2, vs2⟩ := kv
      have hk2 : ¬(k2 = k) := by
        intro he; subst he
        exact h (by simp [dkeys])
      rw [List.cons_append, addVal, if_neg hk2,
        ih (fun hm => h (by simp [dkeys] at hm ⊢; tauto))]
      rfl

lemma foldl_addVal_run (vs : List String) (acc : List (String × List String))
    (k : String) (pre : List String) (h : k ∉ dkeys acc) :
    (vs.map (fun v => (k, v))).foldl (fun d nv => addVal d nv.1 nv.2)
        (acc ++ [(k, pre)])
      = acc ++ [(k, pre ++ vs)] := by
  induction vs generalizing pre with
  | nil => simp
  | cons v vs ih =>
      rw [List.map_cons, List.foldl_cons]
      rw [show addVal (acc ++ [(k, pre)]) (k, v).1 (k, v).2
            = acc ++ [(k, pre ++ [v])] from addVal_found_last acc k pre v h]
      rw [ih (pre ++ [v])]
      simp

lemma foldl_addVal_flat (d : List (String × List String)) :
    ∀ (acc : List (String × List String)),
    (∀ kv ∈ d, kv.2 ≠ []) → (dkeys d).Nodup →
    (∀ k ∈ dkeys d, k ∉ dkeys acc) →
    (flatStr d).foldl (fun d nv => addVal d nv.1 nv.2) acc = acc ++ d := by
  induction d with
  | nil => intro acc _ _ _; simp [flatStr]
  | cons kv d ih =>
      intro acc hval hnd hdisj
      obtain ⟨k, vs⟩ := kv
      rw [show flatStr ((k, vs) :: d)
            = vs.map (fun v => (k, v)) ++ flatStr d by simp [flatStr]]
      rw [List.foldl_append]
      cases hvs : vs with
      | nil =>
          subst hvs
          exact absurd rfl (hval (k, []) (by simp))
      | cons v vs2 =>
          rw [List.map_cons, List.foldl_cons]
          have hkacc : k ∉ dkeys acc := hdisj k (by simp [dkeys])
          rw [show addVal acc (k, v).1 (k, v).2 = acc ++ [(k, [v])] from
            addVal_fresh acc k v hkacc]
          rw [foldl_addVal_run vs2 acc k [v] hkacc]
          rw [ih (acc ++ [(k, [v] ++ vs2)])
            (fun q hq => hval q (List.mem_cons_of_mem _ hq))
            (by
              simp only [dkeys, List.map_cons, List.nodup_cons] at hnd
              exact hnd.2)
            (by
              intro k2 hk2 hmem
              simp only [dkeys, List.map_append, List.map_cons, List.map_nil,
                List.mem_append, List.mem_singleton] at hmem
              rcases hmem with hm | hm
              · refine hdisj k2 ?_ hm
                simp only [dkeys, List.map_cons, List.mem_cons]
                right
                exact hk2
              · subst hm
                simp only [dkeys, List.map_cons, List.nodup_cons] at hnd
                exact hnd.1 hk2)]
          simp [hvs]

lemma addVal_keys (d : List (String × List String)) (n v : String) :
    (n ∈ dkeys d → dkeys (addVal d n v) = dkeys d) ∧
    (n ∉ dkeys d → dkeys (addVal d n v) = dkeys d ++ [n]) := by
  induction d with
  | nil =>
      constructor
      · intro h; simp [dkeys] at h
      · intro _; rfl
  | cons kv rest ih =>
      obtain ⟨k2, vs2⟩ := kv
      by_cases hk : k2 = n
      · subst hk
        constructor
        · intro _
          rw [addVal, if_pos rfl]
          rfl
        · intro h
          exact absurd (by simp [dkeys]) h
      · constructor
        · intro h
          rw [addVal, if_neg hk]
          have hn : n ∈ dkeys rest := by
            simp only [dkeys, List.map_cons, List.mem_cons] at h
            rcases h with h | h
            · exact absurd h.symm hk
            · exact h
          simp only [dkeys, List.map_cons]
          rw [show (addVal rest n v).map Prod.fst = dkeys (addVal rest n v) from rfl,
            ih.1 hn]
          rfl
        · intro h
          rw [addVal, if_neg hk]
          have hn : n ∉ dkeys rest := by
            intro hm
            exact h (by simp only [dkeys, List.map_cons, List.mem_cons]; right; exact hm)
          simp only [dkeys, List.map_cons]
          rw [show (addVal rest n v).map Prod.fst = dkeys (addVal rest n v) from rfl,
            ih.2 hn]
          rfl

lemma addVal_wf (d : List (String × List String)) (n v : String)
    (hnd : (dkeys d).Nodup) (hval : ∀ kv ∈ d, kv.2 ≠ []) :
    (dkeys (addVal d n v)).Nodup ∧ ∀ kv ∈ addVal d n v, kv.2 ≠ [] := by
  constructor
  · by_cases h : n ∈ dkeys d
    · rw [(addVal_keys d n v).1 h]; exact hnd
    · rw [(addVal_keys d n v).2 h]
      rw [List.nodup_append]
      exact ⟨hnd, List.nodup_singleton n, by
        intro x hx hx2
        simp only [List.mem_singleton] at hx2
        subst hx2
        exact h hx⟩
  · induction d with
    | nil =>
        intro kv hkv
        simp only [addVal, List.mem_singleton] at hkv
        subst hkv
        simp
    | cons kv2 rest ih =>
        obtain ⟨k2, vs2⟩ := kv2
        intro kv hkv
        by_cases hk : k2 = n
        · subst hk
          rw [addVal, if_pos rfl] at hkv
          rcases List.mem_cons.mp hkv with h | h
          · subst h; simp
          · exact hval kv (List.mem_cons_of_mem _ h)
        · rw [addVal, if_neg hk] at hkv
          rcases List.mem_cons.mp hkv with h | h
          · subst h; exact hval (k2, vs2) (by simp)
          · refine ih ?_ ?_ kv h
            · simp only [dkeys, List.map_cons, List.nodup_cons] at hnd
              exact hnd.2
            · exact fun q hq => hval q (List.mem_cons_of_mem _ hq)

lemma parse_qs_wf (pairs : List (String × String)) :
    ∀ (acc : List (String × List String)),
    (dkeys acc).Nodup → (∀ kv ∈ acc, kv.2 ≠ []) →
    (dkeys (pairs.foldl (fun d nv => addVal d nv.1 nv.2) acc)).Nodup ∧
    ∀ kv ∈ pairs.foldl (fun d nv => addVal d nv.1 nv.2) acc, kv.2 ≠ [] := by
  induction pairs with
  | nil => intro acc h1 h2; exact ⟨h1, h2⟩
  | cons p ps ih =>
      intro acc h1 h2
      rw [List.foldl_cons]
      have hw := addVal_wf acc p.1 p.2 h1 h2
      exact ih (addVal acc p.1 p.2) hw.1 hw.2

lemma setKeyStr_keys (d : List (String × List String)) (k : String) (v : List String) :
    (k ∈ dkeys d → dkeys (setKeyStr d k v) = dkeys d) ∧
    (k ∉ dkeys d → dkeys (setKeyStr d k v) = dkeys d ++ [k]) := by
  induction d with
  | nil =>
      constructor
      · intro h; simp [dkeys] at h
      · intro _; rfl
  | cons kv rest ih =>
      obtain ⟨k2, vs2⟩ := kv
      by_cases hk : k2 = k
      · subst hk
        constructor
        · intro _
          rw [setKeyStr, if_pos rfl]
          rfl
        · intro h
          exact absurd (by simp [dkeys]) h
      · constructor
        · intro h
          rw [setKeyStr, if_neg hk]
          have hn : k ∈ dkeys rest := by
            simp only [dkeys, List.map_cons, List.mem_cons] at h
            rcases h with h | h
            · exact absurd h.symm hk
            · exact h
          simp only [dkeys, List.map_cons]
          rw [show (setKeyStr rest k v).map Prod.fst = dkeys (setKeyStr rest k v)
              from rfl, ih.1 hn]
          rfl
        · intro h
          rw [setKeyStr, if_neg hk]
          have hn : k ∉ dkeys rest := by
            intro hm
            exact h (by simp only [dkeys, List.map_cons, List.mem_cons]; right; exact hm)
          simp only [dkeys, List.map_cons]
          rw [show (setKeyStr rest k v).map Prod.fst = dkeys (setKeyStr rest k v)
              from rfl, ih.2 hn]
          rfl

lemma setKeyStr_wf (d : List (String × List String)) (k : String) (v : List String)
    (hnd : (dkeys d).Nodup) (hval : ∀ kv ∈ d, kv.2 ≠ []) (hv : v ≠ []) :
    (dkeys (setKeyStr d k v)).Nodup ∧ ∀ kv ∈ setKeyStr d k v, kv.2 ≠ [] := by
  constructor
  · by_cases h : k ∈ dkeys d
    · rw [(setKeyStr_keys d k v).1 h]; exact hnd
    · rw [(setKeyStr_keys d k v).2 h]
      rw [List.nodup_append]
      exact ⟨hnd, List.nodup_singleton k, by
        intro x hx hx2
        simp only [List.mem_singleton] at hx2
        subst hx2
        exact h hx⟩
  · induction d with
    | nil =>
        intro kv hkv
        simp only [setKeyStr, List.mem_singleton] at hkv
        subst hkv
        exact hv
    | cons kv2 rest ih =>
        obtain ⟨k2, vs2⟩ := kv2
        intro kv hkv
        by_cases hk : k2 = k
        · subst hk
          rw [setKeyStr, if_pos rfl] at hkv
          rcases List.mem_cons.mp hkv with h | h
          · subst h; exact hv
          · exact hval kv (List.mem_cons_of_mem _ h)
        · rw [setKeyStr, if_neg hk] at hkv
          rcases List.mem_cons.mp hkv with h | h
          · subst h; exact hval (k2, vs2) (by simp)
          · refine ih ?_ ?_ kv h
            · simp only [dkeys, List.map_cons, List.nodup_cons] at hnd
              exact hnd.2
            · exact fun q hq => hval q (List.mem_cons_of_mem _ hq)

lemma toDigitsCore_ne_nil (b : Nat) :
    ∀ (fuel n : Nat) (ds : List Char), ds ≠ [] → Nat.toDigitsCore b fuel n ds ≠ []
  | 0, _, ds, h => h
  | fuel + 1, n, ds, h => by
      rw [Nat.toDigitsCore]
      split
      · simp
      · exact toDigitsCore_ne_nil b fuel (n / b) _ (by simp)

lemma toString_int_pos_ne (p : Int) (hp : 1 ≤ p) : toString p ≠ "" := by
  obtain ⟨k, rfl⟩ : ∃ k : Nat, p = Int.ofNat k :=
    ⟨p.toNat, by
      rw [show Int.ofNat p.toNat = (p.toNat : Int) from rfl]
      omega⟩
  show Int.repr (Int.ofNat k) ≠ ""
  rw [show Int.repr (Int.ofNat k) = Nat.repr k from rfl]
  rw [show Nat.repr k = (Nat.toDigits 10 k).asString from rfl]
  intro h
  have h2 : Nat.toDigits 10 k = [] := by
    have := congrArg String.toList h
    simpa [List.asString, String.toList] using this
  rw [Nat.toDigits] at h2
  rw [Nat.toDigitsCore] at h2
  revert h2
  split
  · simp
  · exact toDigitsCore_ne_nil 10 k (k / 10) _ (by simp)

lemma utf8Decode_ne_nil (l : List Nat) (h : l ≠ []) : utf8Decode l ≠ [] := by
  cases l with
  | nil => exact absurd rfl h
  | cons b bs =>
      rw [utf8Decode]
      simp

lemma unquoteAux_ne_nil_aux : ∀ (n : Nat) (l : List Char) (acc : List Nat),
    l.length ≤ n → l ≠ [] ∨ acc ≠ [] → unquoteAux l acc ≠ [] := by
  intro n
  induction n with
  | zero =>
      intro l acc hlen h
      have hl : l = [] := by
        cases l with
        | nil => rfl
        | cons c cs => simp at hlen
      subst hl
      rcases h with h | h
      · exact absurd rfl h
      · exact utf8Decode_ne_nil _ (by simpa using h)
  | succ n ih =>
      intro l acc hlen h
      cases l with
      | nil =>
          rcases h with h | h
          · exact absurd rfl h
          · exact utf8Decode_ne_nil _ (by simpa using h)
      | cons c rest =>
          by_cases hc : c = '%'
          · subst hc
            match rest with
            | h1 :: h2 :: rest2 =>
                cases hv1 : hexDigitVal h1 with
                | some v1 =>
                    cases hv2 : hexDigitVal h2 with
                    | some v2 =>
                        rw [unquoteAux_pct _ _ _ _ _ _ hv1 hv2]
                        refine ih rest2 _ ?_ (Or.inr (by simp))
                        simp only [List.length_cons] at hlen
                        omega
                    | none =>
                        rw [show unquoteAux ('%' :: h1 :: h2 :: rest2) acc
                              = utf8Decode acc.reverse
                                ++ '%' :: unquoteAux (h1 :: h2 :: rest2) [] by
                            simp [unquoteAux, hv1, hv2]]
                        simp
                | none =>
                    rw [show unquoteAux ('%' :: h1 :: h2 :: rest2) acc
                          = utf8Decode acc.reverse
                            ++ '%' :: unquoteAux (h1 :: h2 :: rest2) [] by
                        simp [unquoteAux, hv1]]
                    simp
            | [] =>
                rw [show unquoteAux ['%'] acc
                      = utf8Decode acc.reverse ++ '%' :: unquoteAux [] [] by
                    simp [unquoteAux]]
                simp
            | [h1] =>
                rw [show unquoteAux ['%', h1] acc
                      = utf8Decode acc.reverse ++ '%' :: unquoteAux [h1] [] by
                    simp [unquoteAux]]
                simp
          · rw [unquoteAux_other c rest acc hc]
            simp

lemma unquote_plus_ne_empty (v : List Char) (hv : v ≠ []) :
    unquote_plus (String.mk v) ≠ "" := by
  intro h
  have h2 : unquoteAux (plusToSpace v) [] = [] := by
    have := congrArg String.toList h
    simpa [unquote_plus, String.toList] using this
  refine unquoteAux_ne_nil_aux (plusToSpace v).length _ [] le_rfl (Or.inl ?_) h2
  intro hp
  apply hv
  have := congrArg List.length hp
  simp [plusToSpace] at this
  exact this

lemma ne_nil_of_isEmpty_false {l : List Char} (h : l.isEmpty = false) : l ≠ [] := by
  cases l with
  | nil => cases h
  | cons c cs => simp

lemma parse_qsl_values (qs : String) : ∀ pr ∈ parse_qsl qs, pr.2 ≠ "" := by
  intro pr hpr
  unfold parse_qsl at hpr
  split at hpr
  · cases hpr
  · rw [List.mem_filterMap] at hpr
    obtain ⟨nv, _, hnv⟩ := hpr
    split at hnv
    · cases hnv
    · split at hnv
      next => cases hnv
      next n v heq =>
          split at hnv
          · cases hnv
          · next hve =>
              have hv : v ≠ [] := ne_nil_of_isEmpty_false (by
                cases hvi : v.isEmpty
                · rfl
                · exact absurd hvi hve)
              cases hnv
              exact unquote_plus_ne_empty v hv

lemma addVal_strings (P : String → Prop) (d : List (String × List String))
    (n v : String) (hd : ∀ kv ∈ d, ∀ s ∈ kv.2, P s) (hv : P v) :
    ∀ kv ∈ addVal d n v, ∀ s ∈ kv.2, P s := by
  induction d with
  | nil =>
      intro kv hkv s hs
      simp only [addVal, List.mem_singleton] at hkv
      subst hkv
      simp only [List.mem_singleton] at hs
      subst hs
      exact hv
  | cons kv2 rest ih =>
      obtain ⟨k2, vs2⟩ := kv2
      intro kv hkv s hs
      by_cases hk : k2 = n
      · subst hk
        rw [addVal, if_pos rfl] at hkv
        rcases List.mem_cons.mp hkv with h | h
        · subst h
          rcases List.mem_append.mp hs with h2 | h2
          · exact hd (k2, vs2) (by simp) s h2
          · simp only [List.mem_singleton] at h2
            subst h2
            exact hv
        · exact hd kv (List.mem_cons_of_mem _ h) s hs
      · rw [addVal, if_neg hk] at hkv
        rcases List.mem_cons.mp hkv with h | h
        · subst h
          exact hd (k2, vs2) (by simp) s hs
        · exact ih (fun q hq => hd q (List.mem_cons_of_mem _ hq)) kv h s hs

lemma foldl_addVal_strings (P : String → Prop) (pairs : List (String × String)) :
    ∀ (acc : List (String × List String)),
    (∀ kv ∈ acc, ∀ s ∈ kv.2, P s) → (∀ pr ∈ pairs, P pr.2) →
    ∀ kv ∈ pairs.foldl (fun d nv => addVal d nv.1 nv.2) acc, ∀ s ∈ kv.2, P s := by
  induction pairs with
  | nil => intro acc hacc _; exact hacc
  | cons pr prs ih =>
      intro acc hacc hprs
      rw [List.foldl_cons]
      exact ih (addVal acc pr.1 pr.2)
        (addVal_strings P acc pr.1 pr.2 hacc (hprs pr (by simp)))
        (fun q hq => hprs q (List.mem_cons_of_mem _ hq))

lemma parse_qs_strings (qs : String) :
    ∀ kv ∈ parse_qs qs, ∀ s ∈ kv.2, s ≠ "" :=
  foldl_addVal_strings (fun s => s ≠ "") (parse_qsl qs) [] (by simp)
    (parse_qsl_values qs)

lemma setKeyStr_strings (P : String → Prop) (d : List (String × List String))
    (k : String) (v : List String) (hd : ∀ kv ∈ d, ∀ s ∈ kv.2, P s)
    (hv : ∀ s ∈ v, P s) :
    ∀ kv ∈ setKeyStr d k v, ∀ s ∈ kv.2, P s := by
  induction d with
  | nil =>
      intro kv hkv s hs
      simp only [setKeyStr, List.mem_singleton] at hkv
      subst hkv
      exact hv s hs
  | cons kv2 rest ih =>
      obtain ⟨k2, vs2⟩ := kv2
      intro kv hkv s hs
      by_cases hk : k2 = k
      · subst hk
        rw [setKeyStr, if_pos rfl] at hkv
        rcases List.mem_cons.mp hkv with h | h
        · subst h
          exact hv s hs
        · exact hd kv (List.mem_cons_of_mem _ h) s hs
      · rw [setKeyStr, if_neg hk] at hkv
        rcases List.mem_cons.mp hkv with h | h
        · subst h
          exact hd (k2, vs2) (by simp) s hs
        · exact ih (fun q hq => hd q (List.mem_cons_of_mem _ hq)) kv h s hs

/-- The central query fact of `get_page_url`: re-encoding `parse_qs(query)`
with `page` overwritten by the integer `p` and parsing it back yields exactly
the dict with `page` bound to `[str(p)]`. -/
lemma parse_qs_urlencode_page (qs : String) (p : Int) (hp : 1 ≤ p) :
    parse_qs (urlencode (setKey (strsOf (parse_qs qs)) "page" (QVal.int p)))
      = setKeyStr (parse_qs qs) "page" [toString p] := by
  have hqwf := parse_qs_wf (parse_qsl qs) [] (by simp [dkeys]) (by simp)
  have hDwf := setKeyStr_wf (parse_qs qs) "page" [toString p] hqwf.1 hqwf.2 (by simp)
  have hDstr : ∀ kv ∈ setKeyStr (parse_qs qs) "page" [toString p],
      ∀ s ∈ kv.2, s ≠ "" :=
    setKeyStr_strings _ _ _ _ (parse_qs_strings qs) (by
      intro s hs
      simp only [List.mem_singleton] at hs
      subst hs
      exact toString_int_pos_ne p hp)
  have hval : ∀ pr ∈ flatPairs (setKey (strsOf (parse_qs qs)) "page" (QVal.int p)),
      pr.2 ≠ "" := by
    rw [flatPairs_setKey_int]
    intro pr hpr
    rw [show flatStr (setKeyStr (parse_qs qs) "page" [toString p])
          = (setKeyStr (parse_qs qs) "page" [toString p]).flatMap
              (fun kv => kv.2.map (fun v => (kv.1, v))) from rfl] at hpr
    rw [List.mem_flatMap] at hpr
    obtain ⟨kv, hkv, hpr⟩ := hpr
    rw [List.mem_map] at hpr
    obtain ⟨s, hskv, hspr⟩ := hpr
    have := hDstr kv hkv s hskv
    rw [← hspr]
    exact this
  rw [show parse_qs (urlencode (setKey (strsOf (parse_qs qs)) "page" (QVal.int p)))
        = (parse_qsl (urlencode (setKey (strsOf (parse_qs qs)) "page" (QVal.int p)))).foldl
            (fun d nv => addVal d nv.1 nv.2) [] from rfl]
  rw [parse_qsl_urlencode _ hval, flatPairs_setKey_int]
  rw [foldl_addVal_flat _ [] hDwf.2 hDwf.1 (by simp [dkeys])]
  rfl

/-- Characters valid in scheme names (`scheme_chars`). -/
def schemeChar (c : Char) : Bool :=
  c.isAlpha || c.isDigit || c == '+' || c == '-' || c == '.'

/-- ASCII lower-casing, as `str.lower()` acts on scheme names (which are
checked to be ASCII `scheme_chars` before being lowered). -/
def charLower (c : Char) : Char :=
  if 'A' ≤ c ∧ c ≤ 'Z' then Char.ofNat (c.toNat + 32) else c

/-- Not one of tab, CR, LF (`_UNSAFE_URL_BYTES_TO_REMOVE`). -/
def clean (c : Char) : Bool := !(c == '\t' || c == '\r' || c == '\n')

/-- `urlsplit` removes tab, CR and LF. -/
def removeUnsafe (cs : List Char) : List Char := cs.filter clean

/-- The scheme detection of `urlsplit`: a scheme is split off when a `:`
occurs at position `> 0`, the first character is an (ASCII) letter and every
character before the `:` is a scheme character; the scheme is lower-cased.
Returns `(scheme, remainder)`, with `([], url)` when no scheme is found. -/
def splitScheme (cs : List Char) : List Char × List Char :=
  match breakAt ':' cs with
  | (before, some after) =>
      match before with
      | [] => ([], cs)
      | c0 :: rest0 =>
          if c0.isAlpha && (c0 :: rest0).all schemeChar then
            ((c0 :: rest0).map charLower, after)
          else ([], cs)
  | (_, none) => ([], cs)

/-- Not one of the netloc delimiters `/?#` (`_splitnetloc`). -/
def notDelim (c : Char) : Bool := !(c == '/' || c == '?' || c == '#')

/-- Netloc extraction: when the remainder starts with `//`, the netloc is
everything up to the first of `/?#`. -/
def splitNetlocPart : List Char → List Char × List Char
  | '/' :: '/' :: rest => (rest.takeWhile notDelim, rest.dropWhile notDelim)
  | cs => ([], cs)

/-- The `Invalid IPv6 URL` condition: one bracket without its partner. -/
def badBrackets (netloc : List Char) : Bool :=
  (netloc.contains '[' && !netloc.contains ']')
    || (netloc.contains ']' && !netloc.contains '[')

/-- `_checknetloc` from CPython 3.11 `urllib.parse`: an empty or all-ASCII
netloc always passes; otherwise the characters `@:#?` are removed and the
remainder is NFKC-normalized — `unicodedata.normalize("NFKC", ...)` is the
oracle `nfkc` — and the check raises exactly when normalization changed the
text and the normalized text contains one of `/?#@:`. -/
def checknetlocBad (nfkc : List Char → List Char) (netloc : List Char) :
    Bool :=
  if netloc.isEmpty || netloc.all (fun c => c.toNat < 128) then false
  else
    let n := netloc.filter (fun c =>
      !(c == '@' || c == ':' || c == '#' || c == '?'))
    let n2 := nfkc n
    if n = n2 then false
    else ['/', '?', '#', '@', ':'].any (fun c => n2.contains c)

/-- The `_checknetloc` `ValueError` message (verbatim). -/
def netlocNfkcMsg (netloc : List Char) : String :=
  "netloc '" ++ String.mk netloc
    ++ "' contains invalid characters under NFKC normalization"

/-- The result of `urlsplit`. -/
structure SplitResult where
  scheme : String
  netloc : String
  path : String
  query : String
  fragment : String
deriving DecidableEq, Repr

/-- `urllib.parse.urlsplit` (CPython 3.11).  Its two failures are the
`Invalid IPv6 URL` `ValueError` (checked first, right after the netloc is
extracted) and the `_checknetloc` NFKC `ValueError` (checked last, just
before the result is built). -/
def urlsplit (nfkc : List Char → List Char) (url : String) :
    Except PyError SplitResult :=
  if badBrackets (splitNetlocPart (splitScheme (removeUnsafe url.toList)).2).1 then
    .error (.valueError "Invalid IPv6 URL")
  else if checknetlocBad nfkc
      (splitNetlocPart (splitScheme (removeUnsafe url.toList)).2).1 then
    .error (.valueError (netlocNfkcMsg
      (splitNetlocPart (splitScheme (removeUnsafe url.toList)).2).1))
  else
    .ok ⟨String.mk (splitScheme (removeUnsafe url.toList)).1,
      String.mk (splitNetlocPart (splitScheme (removeUnsafe url.toList)).2).1,
      String.mk (breakAt '?'
        (breakAt '#' (splitNetlocPart (splitScheme (removeUnsafe url.toList)).2).2).1).1,
      String.mk ((breakAt '?'
        (breakAt '#' (splitNetlocPart (splitScheme (removeUnsafe url.toList)).2).2).1).2.getD []),
      String.mk ((breakAt '#'
        (splitNetlocPart (splitScheme (removeUnsafe url.toList)).2).2).2.getD [])⟩

/-- The result of `urlparse`: `urlsplit` plus the params component. -/
structure ParseResult where
  scheme : String
  netloc : String
  path : String
  params : String
  query : String
  fragment : String
deriving DecidableEq, Repr

/-- `uses_params` from `urllib.parse`. -/
def uses_params : List String :=
  ["", "ftp", "hdl", "prospero", "http", "imap", "https", "shttp", "rtsp",
   "rtspu", "sip", "sips", "mms", "sftp", "tel"]

/-- `uses_netloc` from `urllib.parse`. -/
def uses_netloc : List String :=
  ["", "ftp", "http", "gopher", "nntp", "telnet", "imap", "wais", "file",
   "mms", "https", "shttp", "snews", "prospero", "rtsp", "rtspu", "rsync",
   "svn", "svn+ssh", "sftp", "nfs", "git", "git+ssh", "ws", "wss"]

/-- Not a slash. -/
def notSlash (c : Char) : Bool := !(c == '/')

/-- `_splitparams` (only called when `;` occurs in the path): split at the
first `;` at or after the last `/`. -/
def splitparams (cs : List Char) : List Char × List Char :=
  if '/' ∈ cs then
    match breakAt ';' ((cs.reverse.takeWhile notSlash).reverse) with
    | (_, none) => (cs, [])
    | (x, some y) => ((cs.reverse.dropWhile notSlash).reverse ++ x, y)
  else
    match breakAt ';' cs with
    | (_, none) => (cs, [])
    | (x, some y) => (x, y)

/-- `urllib.parse.urlparse` (CPython 3.11). -/
def urlparse (nfkc : List Char → List Char) (url : String) :
    Except PyError ParseResult :=
  match urlsplit nfkc url with
  | .error e => .error e
  | .ok r =>
      if uses_params.contains r.scheme && r.path.toList.contains ';' then
        .ok ⟨r.scheme, r.netloc, String.mk (splitparams r.path.toList).1,
          String.mk (splitparams r.path.toList).2, r.query, r.fragment⟩
      else
        .ok ⟨r.scheme, r.netloc, r.path, "", r.query, r.fragment⟩

/-- `urllib.parse.urlunsplit` (CPython 3.11). -/
def urlunsplit (scheme netloc path query fragment : String) : String :=
  String.mk (
    (fun u3 => if fragment.toList ≠ [] then u3 ++ '#' :: fragment.toList else u3)
    ((fun u2 => if query.toList ≠ [] then u2 ++ '?' :: query.toList else u2)
    ((fun u1 => if scheme.toList ≠ [] then scheme.toList ++ ':' :: u1 else u1)
    (if netloc.toList ≠ [] ∨ (scheme.toList ≠ [] ∧ uses_netloc.contains scheme
        ∧ path.toList.take 2 ≠ ['/', '/']) then
      '/' :: '/' :: (netloc.toList ++
        (if path.toList ≠ [] ∧ path.toList.take 1 ≠ ['/'] then '/' :: path.toList
         else path.toList))
    else path.toList))))

/-- `urllib.parse.urlunparse` (CPython 3.11): re-attach the params to the
path, then `urlunsplit`. -/
def urlunparse (r : ParseResult) : String :=
  urlunsplit r.scheme r.netloc
    (if r.params.toList ≠ [] then String.mk (r.path.toList ++ ';' :: r.params.toList)
     else r.path)
    r.query r.fragment

/-- `get_page_url` from `utils.py`: parse the URL, set `new_query["page"] =
page` on the parsed query dict, re-encode with `doseq=True` and rebuild the
URL.  The `Except` propagates the `ValueError` that `urlparse` can raise;
`nfkc` is the NFKC-normalization oracle of the `_checknetloc` model. -/
def get_page_url (nfkc : List Char → List Char) (url : String)
    (page : Int := 1) : Except PyError String :=
  match urlparse nfkc url with
  | .error e => .error e
  | .ok parsed_url =>
      .ok (urlunparse ⟨parsed_url.scheme, parsed_url.netloc, parsed_url.path,
        parsed_url.params,
        urlencode (setKey (strsOf (parse_qs parsed_url.query)) "page"
          (QVal.int page)),
        parsed_url.fragment⟩)

lemma breakAt_fst_not_mem (c : Char) : ∀ (cs : List Char), c ∉ (breakAt c cs).1
  | [] => by simp [breakAt]
  | x :: xs => by
      by_cases hx : x = c
      · simp [breakAt, hx]
      · simp only [breakAt, if_neg hx]
        intro hm
        rcases List.mem_cons.mp hm with h | h
        · exact hx h.symm
        · exact breakAt_fst_not_mem c xs h

lemma breakAt_not_mem (c : Char) : ∀ (cs : List Char), c ∉ cs →
    breakAt c cs = (cs, none)
  | [], _ => rfl
  | x :: xs, h => by
      have hx : ¬(x = c) := fun he => h (he ▸ List.mem_cons_self x xs)
      rw [breakAt, if_neg hx,
        breakAt_not_mem c xs (fun hm => h (List.mem_cons_of_mem x hm))]

lemma rev_split_decomp (p : Char → Bool) (cs : List Char) :
    cs = (cs.reverse.dropWhile p).reverse ++ (cs.reverse.takeWhile p).reverse := by
  have h := List.takeWhile_append_dropWhile p cs.reverse
  have h2 := congrArg List.reverse h
  rw [List.reverse_append, List.reverse_reverse] at h2
  exact h2.symm

lemma dropWhile_head_false (p : Char → Bool) : ∀ (l : List Char) (c : Char)
    (t : List Char), l.dropWhile p = c :: t → p c = false
  | [], c, t, h => by cases h
  | x :: xs, c, t, h => by
      rw [List.dropWhile_cons] at h
      split at h
      · exact dropWhile_head_false p xs c t h
      · cases h
        simp_all

/-- `splitparams` decomposition: the path part is always a prefix of the
input. -/
lemma splitparams_decomp (pl : List Char) :
    ∃ t, pl = (splitparams pl).1 ++ t := by
  unfold splitparams
  by_cases hs : '/' ∈ pl
  · rw [if_pos hs]
    cases hb : breakAt ';' ((pl.reverse.takeWhile notSlash).reverse) with
    | mk x yo =>
        cases yo with
        | none => exact ⟨[], by simp⟩
        | some y =>
            refine ⟨';' :: y, ?_⟩
            have hpost : (pl.reverse.takeWhile notSlash).reverse = x ++ ';' :: y :=
              breakAt_some hb
            conv_lhs => rw [rev_split_decomp notSlash pl]
            rw [hpost]
            simp
  · rw [if_neg hs]
    cases hb : breakAt ';' pl with
    | mk x yo =>
        cases yo with
        | none => exact ⟨[], by simp⟩
        | some y => exact ⟨';' :: y, by simpa using breakAt_some hb⟩

/-- When a params part was split off, re-joining with `;` restores the
input. -/
lemma splitparams_join (pl : List Char) (h : (splitparams pl).2 ≠ []) :
    pl = (splitparams pl).1 ++ ';' :: (splitparams pl).2 := by
  unfold splitparams at h ⊢
  by_cases hs : '/' ∈ pl
  · rw [if_pos hs] at h ⊢
    cases hb : breakAt ';' ((pl.reverse.takeWhile notSlash).reverse) with
    | mk x yo =>
        cases yo with
        | none =>
            rw [hb] at h
            exact absurd rfl h
        | some y =>
            show pl = ((pl.reverse.dropWhile notSlash).reverse ++ x) ++ ';' :: y
            have hpost : (pl.reverse.takeWhile notSlash).reverse = x ++ ';' :: y :=
              breakAt_some hb
            conv_lhs => rw [rev_split_decomp notSlash pl]
            rw [hpost]
            simp
  · rw [if_neg hs] at h ⊢
    cases hb : breakAt ';' pl with
    | mk x yo =>
        cases yo with
        | none =>
            rw [hb] at h
            exact absurd rfl h
        | some y =>
            show pl = x ++ ';' :: y
            exact breakAt_some hb

lemma splitparams_fst_stable (pl : List Char) (h : (splitparams pl).2 = []) :
    splitparams (splitparams pl).1 = ((splitparams pl).1, []) := by
  by_cases hs : '/' ∈ pl
  · cases hb : breakAt ';' ((pl.reverse.takeWhile notSlash).reverse) with
    | mk x yo =>
        cases yo with
        | none =>
            have hres : splitparams pl = (pl, []) := by
              unfold splitparams
              rw [if_pos hs, hb]
            rw [hres]
            exact hres
        | some y =>
            have hres : splitparams pl
                = ((pl.reverse.dropWhile notSlash).reverse ++ x, y) := by
              unfold splitparams
              rw [if_pos hs, hb]
            rw [hres] at h ⊢
            simp only at h
            subst h
            have hpost : (pl.reverse.takeWhile notSlash).reverse = x ++ [';'] := by
              simpa using breakAt_some hb
            have hxns : ∀ c ∈ x, notSlash c = true := by
              intro c hc
              have hc2 : c ∈ (pl.reverse.takeWhile notSlash).reverse := by
                rw [hpost]
                exact List.mem_append.mpr (Or.inl hc)
              rw [List.mem_reverse] at hc2
              exact List.mem_takeWhile_imp hc2
            have hxnosemi : ';' ∉ x := by
              have := breakAt_fst_not_mem ';' ((pl.reverse.takeWhile notSlash).reverse)
              rw [hb] at this
              exact this
            cases hdw : pl.reverse.dropWhile notSlash with
            | nil =>
                exfalso
                rw [List.dropWhile_eq_nil_iff] at hdw
                have := hdw '/' (by rw [List.mem_reverse]; exact hs)
                simp [notSlash] at this
            | cons c t =>
                have hc : c = '/' := by
                  have := dropWhile_head_false notSlash pl.reverse c t hdw
                  simp [notSlash] at this
                  exact this
                subst hc
                show splitparams ((('/' :: t).reverse) ++ x)
                  = ((('/' :: t).reverse) ++ x, [])
                have hmem : '/' ∈ ('/' :: t).reverse ++ x := by
                  rw [List.mem_append, List.mem_reverse]
                  exact Or.inl (by simp)
                unfold splitparams
                rw [if_pos hmem]
                have hrev : (('/' :: t).reverse ++ x).reverse
                    = x.reverse ++ '/' :: t := by
                  simp
                have htw : ((('/' :: t).reverse ++ x).reverse).takeWhile notSlash
                    = x.reverse := by
                  rw [hrev]
                  rw [List.takeWhile_append_of_pos (by
                    intro a ha
                    rw [List.mem_reverse] at ha
                    exact hxns a ha)]
                  rw [List.takeWhile_cons]
                  simp [notSlash]
                rw [htw, List.reverse_reverse,
                  breakAt_not_mem ';' x hxnosemi]
  · cases hb : breakAt ';' pl with
    | mk x yo =>
        cases yo with
        | none =>
            have hres : splitparams pl = (pl, []) := by
              unfold splitparams
              rw [if_neg hs, hb]
            rw [hres]
            exact hres
        | some y =>
            have hres : splitparams pl = (x, y) := by
              unfold splitparams
              rw [if_neg hs, hb]
            rw [hres] at h ⊢
            simp only at h
            subst h
            have hxsub : pl = x ++ [';'] := by
              simpa using breakAt_some hb
            have hxnoslash : '/' ∉ x := by
              intro hm
              exact hs (by rw [hxsub]; exact List.mem_append.mpr (Or.inl hm))
            have hxnosemi : ';' ∉ x := by
              have := breakAt_fst_not_mem ';' pl
              rw [hb] at this
              exact this
            show splitparams x = (x, [])
            unfold splitparams
            rw [if_neg hxnoslash, breakAt_not_mem ';' x hxnosemi]

/-- The params split performed by `urlparse` on a path, as one function. -/
def paramsOf (scheme : String) (pl : List Char) : List Char × List Char :=
  if uses_params.contains scheme && pl.contains ';' then splitparams pl
  else (pl, [])

/-- The path re-assembled by `urlunparse` from path and params. -/
def path2Of (scheme : String) (pl : List Char) : List Char :=
  if (paramsOf scheme pl).2 ≠ [] then
    (paramsOf scheme pl).1 ++ ';' :: (paramsOf scheme pl).2
  else (paramsOf scheme pl).1

lemma paramsOf_stable (scheme : String) (pl : List Char) :
    paramsOf scheme (path2Of scheme pl) = paramsOf scheme pl := by
  unfold path2Of
  by_cases h2 : (paramsOf scheme pl).2 = []
  · rw [if_neg (by simpa using h2)]
    unfold paramsOf at h2 ⊢
    by_cases hc : (uses_params.contains scheme && pl.contains ';') = true
    · rw [if_pos hc] at h2 ⊢
      by_cases hc2 : (uses_params.contains scheme
          && (splitparams pl).1.contains ';') = true
      · rw [if_pos hc2, splitparams_fst_stable pl h2]
        exact Prod.ext rfl h2.symm
      · rw [if_neg hc2]
        exact Prod.ext rfl h2.symm
    · rw [if_neg hc] at h2 ⊢
      rw [if_neg hc]
  · rw [if_pos (by simpa using h2)]
    unfold paramsOf at h2 ⊢
    by_cases hc : (uses_params.contains scheme && pl.contains ';') = true
    · rw [if_pos hc] at h2 ⊢
      have hj := splitparams_join pl h2
      rw [← hj, if_pos hc]
    · rw [if_neg hc] at h2
      exact absurd rfl h2

lemma path2_decomp (scheme : String) (pl : List Char) :
    ∃ t, pl = path2Of scheme pl ++ t := by
  unfold path2Of
  by_cases h2 : (paramsOf scheme pl).2 = []
  · rw [if_neg (by simpa using h2)]
    unfold paramsOf at h2 ⊢
    by_cases hc : (uses_params.contains scheme && pl.contains ';') = true
    · rw [if_pos hc] at h2 ⊢
      exact splitparams_decomp pl
    · rw [if_neg hc]
      exact ⟨[], by simp⟩
  · rw [if_pos (by simpa using h2)]
    unfold paramsOf at h2 ⊢
    by_cases hc : (uses_params.contains scheme && pl.contains ';') = true
    · rw [if_pos hc] at h2 ⊢
      exact ⟨[], by simpa using splitparams_join pl h2⟩
    · rw [if_neg hc] at h2
      exact absurd rfl h2

lemma path2_chars (scheme : String) (pl : List Char) :
    ∀ c ∈ path2Of scheme pl, c ∈ pl ∨ c = ';' := by
  intro c hc
  obtain ⟨t, ht⟩ := path2_decomp scheme pl
  left
  rw [ht]
  exact List.mem_append.mpr (Or.inl hc)

lemma path2_take1 (scheme : String) (pl : List Char)
    (h : pl = [] ∨ pl.take 1 = ['/']) :
    path2Of scheme pl = [] ∨ (path2Of scheme pl).take 1 = ['/'] := by
  obtain ⟨t, ht⟩ := path2_decomp scheme pl
  cases hp : path2Of scheme pl with
  | nil => exact Or.inl rfl
  | cons c cs =>
      right
      rw [hp] at ht
      rcases h with h | h
      · rw [h] at ht
        cases ht
      · rw [ht] at h
        simpa using h

lemma path2_take2 (scheme : String) (pl : List Char)
    (h : ¬ pl.take 2 = ['/', '/']) :
    ¬ (path2Of scheme pl).take 2 = ['/', '/'] := by
  intro h2
  apply h
  obtain ⟨t, ht⟩ := path2_decomp scheme pl
  cases hp : path2Of scheme pl with
  | nil => rw [hp] at h2; cases h2
  | cons c cs =>
      cases cs with
      | nil => rw [hp] at h2; cases h2
      | cons c2 cs2 =>
          rw [hp] at h2 ht
          have hcc : c = '/' ∧ c2 = '/' := by simpa using h2
          obtain ⟨rfl, rfl⟩ := hcc
          rw [ht]
          rfl

lemma removeUnsafe_id (cs : List Char) (h : ∀ c ∈ cs, clean c = true) :
    removeUnsafe cs = cs :=
  List.filter_eq_self.mpr h

lemma char_ne_of_true_false {c x : Char} {p : Char → Bool} (h : p c = true)
    (hx : p x = false) : c ≠ x := by
  intro he
  subst he
  rw [h] at hx
  cases hx

lemma clean_of_ne (c : Char) (h1 : c ≠ '\t') (h2 : c ≠ '\r') (h3 : c ≠ '\n') :
    clean c = true := by
  simp [clean, h1, h2, h3]

lemma clean_of_pred (c : Char) (p : Char → Bool) (h : p c = true)
    (h1 : p '\t' = false) (h2 : p '\r' = false) (h3 : p '\n' = false) :
    clean c = true :=
  clean_of_ne c (char_ne_of_true_false h h1) (char_ne_of_true_false h h2)
    (char_ne_of_true_false h h3)

lemma schemeChar_clean (c : Char) (h : schemeChar c = true) : clean c = true :=
  clean_of_pred c schemeChar h (by decide) (by decide) (by decide)

lemma quote_char_clean (c : Char) (h : c = '+' ∨ c = '%' ∨ alwaysSafe c = true) :
    clean c = true := by
  rcases h with h | h | h
  · subst h; rfl
  · subst h; rfl
  · exact clean_of_pred c alwaysSafe h (by decide) (by decide) (by decide)

lemma scheme_no_colon (sl : List Char) (h : sl.all schemeChar = true) :
    ':' ∉ sl := by
  intro hm
  exact char_ne_of_true_false (List.all_eq_true.mp h ':' hm)
    (show schemeChar ':' = false by decide) rfl

lemma splitScheme_of (sl rest : List Char) (h1 : sl ≠ [])
    (h2 : ∀ c, sl.head? = some c → c.isAlpha = true)
    (h3 : sl.all schemeChar = true) (h4 : sl.map charLower = sl) :
    splitScheme (sl ++ ':' :: rest) = (sl, rest) := by
  unfold splitScheme
  rw [breakAt_prepend ':' sl rest (scheme_no_colon sl h3)]
  cases sl with
  | nil => exact absurd rfl h1
  | cons c0 rest0 =>
      show (if (c0.isAlpha && (c0 :: rest0).all schemeChar) = true
          then ((c0 :: rest0).map charLower, rest)
          else ([], (c0 :: rest0) ++ ':' :: rest)) = (c0 :: rest0, rest)
      rw [if_pos (by rw [h2 c0 rfl, h3]; rfl)]
      rw [h4]

lemma splitNetlocPart_of (nl tail : List Char) (hnl : ∀ c ∈ nl, notDelim c = true)
    (htail : ∀ c, tail.head? = some c → notDelim c = false) :
    splitNetlocPart ('/' :: '/' :: (nl ++ tail)) = (nl, tail) := by
  have htake : (nl ++ tail).takeWhile notDelim = nl := by
    rw [List.takeWhile_append_of_pos hnl]
    cases tail with
    | nil => simp
    | cons c t =>
        rw [List.takeWhile_cons, htail c rfl]
        simp
  have hdrop : (nl ++ tail).dropWhile notDelim = tail := by
    rw [List.dropWhile_append_of_pos hnl]
    cases tail with
    | nil => simp
    | cons c t =>
        rw [List.dropWhile_cons, htail c rfl]
        simp
  rw [splitNetlocPart, htake, hdrop]

lemma splitNetlocPart_none (cs : List Char) (h : ¬ cs.take 2 = ['/', '/']) :
    splitNetlocPart cs = ([], cs) := by
  match cs with
  | [] => rfl
  | [c] =>
      unfold splitNetlocPart
      split
      next heq => cases heq
      next => rfl
  | c1 :: c2 :: rest =>
      unfold splitNetlocPart
      split
      next heq =>
          cases heq
          exact absurd rfl h
      next => rfl

lemma breakAt_hash_tail (pl ql fl : List Char)
    (hpl2 : ∀ c ∈ pl, c ≠ '?' ∧ c ≠ '#' ∧ clean c = true)
    (hql : ∀ c ∈ ql, c ≠ '#' ∧ clean c = true) :
    breakAt '#' (pl ++ '?' :: (ql ++ (if fl ≠ [] then '#' :: fl else [])))
      = (pl ++ '?' :: ql, if fl ≠ [] then some fl else none) := by
  have hnof : '#' ∉ pl ++ '?' :: ql := by
    intro hm
    rcases List.mem_append.mp hm with hm | hm
    · exact (hpl2 '#' hm).2.1 rfl
    · rcases List.mem_cons.mp hm with hm | hm
      · cases hm
      · exact (hql '#' hm).1 rfl
  by_cases hfl : fl = []
  · subst hfl
    rw [if_neg (by simp), if_neg (by simp)]
    rw [show pl ++ '?' :: (ql ++ []) = pl ++ '?' :: ql by simp]
    exact breakAt_not_mem '#' _ hnof
  · rw [if_pos (by simpa using hfl), if_pos (by simpa using hfl)]
    rw [show pl ++ '?' :: (ql ++ '#' :: fl) = (pl ++ '?' :: ql) ++ '#' :: fl by simp]
    exact breakAt_prepend '#' _ _ hnof

lemma breakAt_query (pl ql : List Char)
    (hpl2 : ∀ c ∈ pl, c ≠ '?' ∧ c ≠ '#' ∧ clean c = true) :
    breakAt '?' (pl ++ '?' :: ql) = (pl, some ql) :=
  breakAt_prepend '?' pl ql (fun hm => (hpl2 '?' hm).1 rfl)

lemma badBrackets_false (nl : List Char)
    (hnl : ∀ c ∈ nl, notDelim c = true ∧ c ≠ '[' ∧ c ≠ ']' ∧ clean c = true) :
    badBrackets nl = false := by
  have h1 : nl.contains '[' = false := by
    rw [List.contains_eq_any_beq, List.any_eq_false]
    intro c hc
    have : ¬ '[' = c := fun he => (hnl c hc).2.1 he.symm
    simpa using this
  have h2 : nl.contains ']' = false := by
    rw [List.contains_eq_any_beq, List.any_eq_false]
    intro c hc
    have : ¬ ']' = c := fun he => (hnl c hc).2.2.1 he.symm
    simpa using this
  unfold badBrackets
  rw [h1, h2]
  rfl

/-- An all-ASCII netloc always passes `_checknetloc`, whatever the
normalization oracle. -/
lemma checknetlocBad_ascii (nfkc : List Char → List Char) (nl : List Char)
    (h : ∀ c ∈ nl, c.toNat < 128) : checknetlocBad nfkc nl = false := by
  unfold checknetlocBad
  rw [if_pos]
  have hall : nl.all (fun c => decide (c.toNat < 128)) = true :=
    List.all_eq_true.mpr (fun c hc => decide_eq_true (h c hc))
  rw [hall, Bool.or_true]

/-- The canonical shape of the URLs handled in the `get_page_url`
verification: scheme, optional `//netloc`, path, `?query`, and a fragment
marker only when the fragment is nonempty. -/
def urlForm (hasNet : Bool) (sl nl pl ql fl : List Char) : List Char :=
  sl ++ ':' :: (if hasNet then
      '/' :: '/' :: (nl ++ (pl ++ '?' :: (ql
        ++ (if fl ≠ [] then '#' :: fl else []))))
    else pl ++ '?' :: (ql ++ (if fl ≠ [] then '#' :: fl else [])))

lemma urlsplit_compute (nfkc : List Char → List Char)
    (sl nl pl ql fl : List Char) (hasNet : Bool)
    (hsl1 : sl ≠ []) (hsl2 : ∀ c, sl.head? = some c → c.isAlpha = true)
    (hsl3 : sl.all schemeChar = true) (hsl4 : sl.map charLower = sl)
    (hnl : ∀ c ∈ nl, notDelim c = true ∧ c ≠ '[' ∧ c ≠ ']' ∧ clean c = true
      ∧ c.toNat < 128)
    (hpl1 : pl = [] ∨ pl.take 1 = ['/'])
    (hpl2 : ∀ c ∈ pl, c ≠ '?' ∧ c ≠ '#' ∧ clean c = true)
    (hql : ∀ c ∈ ql, c ≠ '#' ∧ clean c = true)
    (hfl : ∀ c ∈ fl, clean c = true)
    (hnonet : hasNet = false → nl = [] ∧ ¬ pl.take 2 = ['/', '/']) :
    urlsplit nfkc (String.mk (urlForm hasNet sl nl pl ql fl))
      = .ok ⟨String.mk sl, String.mk nl, String.mk pl, String.mk ql,
          String.mk fl⟩ := by
  unfold urlForm
  have htailclean : ∀ c ∈ pl ++ '?' :: (ql ++ (if fl ≠ [] then '#' :: fl else [])),
      clean c = true := by
    intro c hc
    rcases List.mem_append.mp hc with hc | hc
    · exact (hpl2 c hc).2.2
    · rcases List.mem_cons.mp hc with hc | hc
      · subst hc; rfl
      · rcases List.mem_append.mp hc with hc | hc
        · exact (hql c hc).2
        · by_cases hf : fl = []
          · rw [hf] at hc; simp at hc
          · rw [if_pos (by simpa using hf)] at hc
            rcases List.mem_cons.mp hc with hc | hc
            · subst hc; rfl
            · exact hfl c hc
  have hbodyclean : ∀ c ∈ (if hasNet then
        '/' :: '/' :: (nl ++ (pl ++ '?' :: (ql
          ++ (if fl ≠ [] then '#' :: fl else []))))
       else pl ++ '?' :: (ql ++ (if fl ≠ [] then '#' :: fl else []))),
      clean c = true := by
    cases hasNet with
    | false =>
        rw [if_neg (by simp)]
        exact htailclean
    | true =>
        rw [if_pos rfl]
        intro c hc
        rcases List.mem_cons.mp hc with hc | hc
        · subst hc; rfl
        · rcases List.mem_cons.mp hc with hc | hc
          · subst hc; rfl
          · rcases List.mem_append.mp hc with hc | hc
            · exact (hnl c hc).2.2.2.1
            · exact htailclean c hc
  have hfullclean : ∀ c ∈ sl ++ ':' :: (if hasNet then
        '/' :: '/' :: (nl ++ (pl ++ '?' :: (ql
          ++ (if fl ≠ [] then '#' :: fl else []))))
       else pl ++ '?' :: (ql ++ (if fl ≠ [] then '#' :: fl else []))),
      clean c = true := by
    intro c hc
    rcases List.mem_append.mp hc with hc | hc
    · exact schemeChar_clean c (List.all_eq_true.mp hsl3 c hc)
    · rcases List.mem_cons.mp hc with hc | hc
      · subst hc; rfl
      · exact hbodyclean c hc
  have h0 : removeUnsafe (String.mk (sl ++ ':' :: (if hasNet then
        '/' :: '/' :: (nl ++ (pl ++ '?' :: (ql
          ++ (if fl ≠ [] then '#' :: fl else []))))
       else pl ++ '?' :: (ql ++ (if fl ≠ [] then '#' :: fl else []))))).toList
      = sl ++ ':' :: (if hasNet then
        '/' :: '/' :: (nl ++ (pl ++ '?' :: (ql
          ++ (if fl ≠ [] then '#' :: fl else []))))
       else pl ++ '?' :: (ql ++ (if fl ≠ [] then '#' :: fl else []))) :=
    removeUnsafe_id _ hfullclean
  have h1 : splitScheme (sl ++ ':' :: (if hasNet then
        '/' :: '/' :: (nl ++ (pl ++ '?' :: (ql
          ++ (if fl ≠ [] then '#' :: fl else []))))
       else pl ++ '?' :: (ql ++ (if fl ≠ [] then '#' :: fl else []))))
      = (sl, (if hasNet then
        '/' :: '/' :: (nl ++ (pl ++ '?' :: (ql
          ++ (if fl ≠ [] then '#' :: fl else []))))
       else pl ++ '?' :: (ql ++ (if fl ≠ [] then '#' :: fl else [])))) :=
    splitScheme_of sl _ hsl1 hsl2 hsl3 hsl4
  have h2 : splitNetlocPart (if hasNet then
        '/' :: '/' :: (nl ++ (pl ++ '?' :: (ql
          ++ (if fl ≠ [] then '#' :: fl else []))))
       else pl ++ '?' :: (ql ++ (if fl ≠ [] then '#' :: fl else [])))
      = (nl, pl ++ '?' :: (ql ++ (if fl ≠ [] then '#' :: fl else []))) := by
    cases hasNet with
    | true =>
        rw [if_pos rfl]
        refine splitNetlocPart_of nl _ (fun c hc => (hnl c hc).1) ?_
        intro c hc
        cases hpl : pl with
        | nil =>
            rw [hpl] at hc
            simp only [List.nil_append, List.head?_cons, Option.some.injEq] at hc
            subst hc
            rfl
        | cons p0 prest =>
            rw [hpl] at hc
            simp only [List.cons_append, List.head?_cons, Option.some.injEq] at hc
            subst hc
            rcases hpl1 with h | h
            · rw [hpl] at h; cases h
            · rw [hpl] at h
              have hp0 : p0 = '/' := by simpa using h
              subst hp0
              rfl
    | false =>
        rw [if_neg (by simp)]
        obtain ⟨hnl0, hp2⟩ := hnonet rfl
        subst hnl0
        refine splitNetlocPart_none _ ?_
        cases hpl : pl with
        | nil => simp
        | cons p0 prest =>
            cases prest with
            | nil => simp
            | cons p1 prest2 =>
                rw [hpl] at hp2
                intro hcontra
                apply hp2
                simp only [List.cons_append] at hcontra
                simpa using hcontra
  have h3 := breakAt_hash_tail pl ql fl hpl2 hql
  have h4 := breakAt_query pl ql hpl2
  have h5 := badBrackets_false nl (fun c hc => ⟨(hnl c hc).1, (hnl c hc).2.1,
    (hnl c hc).2.2.1, (hnl c hc).2.2.2.1⟩)
  have h6 := checknetlocBad_ascii nfkc nl (fun c hc => (hnl c hc).2.2.2.2)
  unfold urlsplit
  rw [h0, h1, h2, h5, h6]
  rw [if_neg (by simp)]
  rw [if_neg (by simp)]
  rw [h3, h4]
  by_cases hf : fl = []
  · subst hf
    simp
  · simp [hf]
lemma urlparse_compute (nfkc : List Char → List Char)
    (sl nl pl ql fl : List Char) (hasNet : Bool)
    (hsl1 : sl ≠ []) (hsl2 : ∀ c, sl.head? = some c → c.isAlpha = true)
    (hsl3 : sl.all schemeChar = true) (hsl4 : sl.map charLower = sl)
    (hnl : ∀ c ∈ nl, notDelim c = true ∧ c ≠ '[' ∧ c ≠ ']' ∧ clean c = true
      ∧ c.toNat < 128)
    (hpl1 : pl = [] ∨ pl.take 1 = ['/'])
    (hpl2 : ∀ c ∈ pl, c ≠ '?' ∧ c ≠ '#' ∧ clean c = true)
    (hql : ∀ c ∈ ql, c ≠ '#' ∧ clean c = true)
    (hfl : ∀ c ∈ fl, clean c = true)
    (hnonet : hasNet = false → nl = [] ∧ ¬ pl.take 2 = ['/', '/']) :
    urlparse nfkc (String.mk (urlForm hasNet sl nl pl ql fl))
      = .ok ⟨String.mk sl, String.mk nl,
          String.mk (paramsOf (String.mk sl) pl).1,
          String.mk (paramsOf (String.mk sl) pl).2,
          String.mk ql, String.mk fl⟩ := by
  unfold urlparse
  rw [urlsplit_compute nfkc sl nl pl ql fl hasNet hsl1 hsl2 hsl3 hsl4 hnl hpl1
    hpl2 hql hfl hnonet]
  show (if (uses_params.contains (String.mk sl) && pl.contains ';') = true then
      (Except.ok ⟨String.mk sl, String.mk nl, String.mk (splitparams pl).1,
        String.mk (splitparams pl).2, String.mk ql, String.mk fl⟩
        : Except PyError ParseResult)
    else Except.ok ⟨String.mk sl, String.mk nl, String.mk pl, "", String.mk ql,
      String.mk fl⟩)
    = Except.ok ⟨String.mk sl, String.mk nl,
        String.mk (paramsOf (String.mk sl) pl).1,
        String.mk (paramsOf (String.mk sl) pl).2, String.mk ql, String.mk fl⟩
  unfold paramsOf
  by_cases hc : (uses_params.contains (String.mk sl) && pl.contains ';') = true
  · rw [if_pos hc, if_pos hc]
  · rw [if_neg hc, if_neg hc]
lemma urlunsplit_toList_net (s n p q f : String)
    (hsl : s.toList ≠ []) (hql : q.toList ≠ [])
    (hpl1 : p.toList = [] ∨ p.toList.take 1 = ['/'])
    (hcond : n.toList ≠ [] ∨ (s.toList ≠ [] ∧ uses_netloc.contains s = true
      ∧ p.toList.take 2 ≠ ['/', '/'])) :
    (urlunsplit s n p q f).toList
      = urlForm true s.toList n.toList p.toList q.toList f.toList := by
  have hins : ¬(p.toList ≠ [] ∧ p.toList.take 1 ≠ ['/']) := by
    rcases hpl1 with h | h
    · intro hc; exact hc.1 h
    · intro hc; exact hc.2 h
  have hcond2 : n.toList ≠ [] ∨ (s.toList ≠ [] ∧ uses_netloc.contains s
      ∧ p.toList.take 2 ≠ ['/', '/']) := hcond
  unfold urlunsplit
  beta_reduce
  rw [show ∀ l : List Char, (String.mk l).toList = l from fun _ => rfl]
  rw [if_pos hcond2, if_neg hins, if_pos hsl, if_pos hql]
  unfold urlForm
  rw [if_pos rfl]
  by_cases hf : f.toList = []
  · have hfd : f.data = [] := hf
    simp [hfd]
  · have hfd : ¬ f.data = [] := hf
    simp [hfd]

lemma urlunsplit_toList_nonet (s n p q f : String)
    (hn : n.toList = []) (hsl : s.toList ≠ []) (hql : q.toList ≠ [])
    (hcont : ¬(s.toList ≠ [] ∧ uses_netloc.contains s = true
      ∧ p.toList.take 2 ≠ ['/', '/'])) :
    (urlunsplit s n p q f).toList
      = urlForm false s.toList [] p.toList q.toList f.toList := by
  have hcond2 : ¬(n.toList ≠ [] ∨ (s.toList ≠ [] ∧ uses_netloc.contains s
      ∧ p.toList.take 2 ≠ ['/', '/'])) := by
    intro h
    rcases h with h | h
    · exact h hn
    · exact hcont h
  unfold urlunsplit
  beta_reduce
  rw [show ∀ l : List Char, (String.mk l).toList = l from fun _ => rfl]
  rw [if_neg hcond2, if_pos hsl, if_pos hql]
  unfold urlForm
  rw [if_neg (show ¬(false = true) by simp)]
  by_cases hf : f.toList = []
  · have hfd : f.data = [] := hf
    simp [hfd]
  · have hfd : ¬ f.data = [] := hf
    simp [hfd]
lemma string_eq_of_toList {s : String} {l : List Char} (h : s.toList = l) :
    s = String.mk l :=
  congrArg String.mk h

lemma urlunparse_eq (s n q f : String) (pl : List Char) :
    urlunparse ⟨s, n, String.mk (paramsOf s pl).1, String.mk (paramsOf s pl).2,
        q, f⟩
      = urlunsplit s n (String.mk (path2Of s pl)) q f := by
  unfold urlunparse path2Of
  dsimp only [String.toList]
  by_cases h : (paramsOf s pl).2 = []
  · rw [if_neg (fun hc => hc h), if_neg (fun hc => hc h)]
  · rw [if_pos h, if_pos h]

lemma joinSep_chars (sep : Char) : ∀ (segs : List (List Char)) (c : Char),
    c ∈ joinSep sep segs → c = sep ∨ ∃ g ∈ segs, c ∈ g
  | [], c, h => by cases h
  | [g], c, h => Or.inr ⟨g, by simp, h⟩
  | g :: g2 :: gs, c, h => by
      rw [show joinSep sep (g :: g2 :: gs) = g ++ sep :: joinSep sep (g2 :: gs)
          from rfl] at h
      rcases List.mem_append.mp h with h | h
      · exact Or.inr ⟨g, by simp, h⟩
      · rcases List.mem_cons.mp h with h | h
        · exact Or.inl h
        · rcases joinSep_chars sep (g2 :: gs) c h with h | ⟨g3, hg3, hcg⟩
          · exact Or.inl h
          · exact Or.inr ⟨g3, List.mem_cons_of_mem g hg3, hcg⟩

lemma urlencodeSeg_chars (k v : String) (c : Char) (h : c ∈ urlencodeSeg k v) :
    c = '=' ∨ c = '+' ∨ c = '%' ∨ alwaysSafe c = true := by
  unfold urlencodeSeg at h
  rcases List.mem_append.mp h with h | h
  · exact Or.inr (quote_plus_chars k c h)
  · rcases List.mem_cons.mp h with h | h
    · exact Or.inl h
    · exact Or.inr (quote_plus_chars v c h)

lemma urlencode_chars (q : List (String × QVal)) (c : Char)
    (h : c ∈ (urlencode q).toList) :
    c = '&' ∨ c = '=' ∨ c = '+' ∨ c = '%' ∨ alwaysSafe c = true := by
  have h2 : c ∈ joinSep '&' (urlencodeL q) := h
  rcases joinSep_chars '&' (urlencodeL q) c h2 with h3 | ⟨g, hg, hcg⟩
  · exact Or.inl h3
  · rw [urlencodeL_eq, List.mem_map] at hg
    obtain ⟨pr, _, hpr⟩ := hg
    rw [← hpr] at hcg
    exact Or.inr (urlencodeSeg_chars pr.1 pr.2 c hcg)

/-- The characters of `urlencode` output can never be `#` or `?` and are
never stripped by `_UNSAFE_URL_BYTES_TO_REMOVE`. -/
lemma urlencode_query_ok (q : List (String × QVal)) :
    ∀ c ∈ (urlencode q).toList, c ≠ '#' ∧ clean c = true := by
  intro c hc
  have h := urlencode_chars q c hc
  refine ⟨?_, ?_⟩
  · rcases h with h | h | h | h | h
    · subst h; decide
    · subst h; decide
    · subst h; decide
    · subst h; decide
    · exact char_ne_of_true_false h (show alwaysSafe '#' = false by decide)
  · rcases h with h | h | h | h | h
    · subst h; decide
    · subst h; decide
    · exact quote_char_clean c (Or.inl h)
    · exact quote_char_clean c (Or.inr (Or.inl h))
    · exact quote_char_clean c (Or.inr (Or.inr h))

lemma setKey_mem_self : ∀ (q : List (String × QVal)) (k : String) (v : QVal),
    (k, v) ∈ setKey q k v
  | [], k, v => by simp [setKey]
  | (k2, v2) :: q, k, v => by
      by_cases hk : k2 = k
      · subst hk
        simp [setKey]
      · simp only [setKey, if_neg hk]
        exact List.mem_cons_of_mem _ (setKey_mem_self q k v)

lemma urlencode_setKey_int_ne_nil (q : List (String × QVal)) (k : String)
    (n : Int) : (urlencode (setKey q k (.int n))).toList ≠ [] := by
  have hmem : (k, toString n) ∈ flatPairs (setKey q k (.int n)) := by
    unfold flatPairs
    rw [List.mem_flatMap]
    exact ⟨(k, .int n), setKey_mem_self q k (.int n), by simp⟩
  show joinSep '&' (urlencodeL (setKey q k (.int n))) ≠ []
  rw [urlencodeL_eq]
  cases hfp : flatPairs (setKey q k (.int n)) with
  | nil => rw [hfp] at hmem; cases hmem
  | cons pr prs =>
      rw [List.map_cons]
      exact joinSep_ne_nil '&' _ _ (urlencodeSeg_ne_nil pr.1 pr.2)
lemma head_mem_take1 {l : List Char} {c : Char} (h : l.head? = some c) :
    c ∈ l.take 1 := by
  cases l with
  | nil => cases h
  | cons a t =>
      rw [List.head?_cons, Option.some.injEq] at h
      subst h
      simp

/-- A URL rendered in the canonical `scheme://netloc path ?query #fragment`
shape (the `#` marker only when the fragment is nonempty). -/
def renderURL (scheme netloc path query fragment : String) : String :=
  String.mk (urlForm true scheme.toList netloc.toList path.toList
    query.toList fragment.toList)

/-- Well-formedness of URL components, as `urlsplit` needs them in order to
recover each component verbatim: a nonempty lower-case scheme starting with
a letter, a netloc without delimiters or brackets, an absolute (or empty)
path, no stray `?`/`#`, and no tab/CR/LF anywhere.  The netloc is ASCII, so
the `_checknetloc` NFKC check never fires.  `no_dslash` excludes the genuine
`urlunsplit` corner case where an empty netloc next to a `//`-path changes
the parse. -/
structure WfURL (scheme netloc path query fragment : String) : Prop where
  scheme_ne : scheme.toList ≠ []
  scheme_alpha : ∀ c ∈ scheme.toList.take 1, c.isAlpha = true
  scheme_ok : scheme.toList.all schemeChar = true
  scheme_lower : scheme.toList.map charLower = scheme.toList
  netloc_ok : ∀ c ∈ netloc.toList, notDelim c = true ∧ c ≠ '[' ∧ c ≠ ']'
    ∧ clean c = true ∧ c.toNat < 128
  path_slash : path.toList = [] ∨ path.toList.take 1 = ['/']
  path_ok : ∀ c ∈ path.toList, c ≠ '?' ∧ c ≠ '#' ∧ clean c = true
  query_ok : ∀ c ∈ query.toList, c ≠ '#' ∧ clean c = true
  frag_ok : ∀ c ∈ fragment.toList, clean c = true
  no_dslash : netloc.toList = [] → path.toList.take 2 ≠ ['/', '/']

/-- C4 (amended): for every well-formed URL
`scheme://netloc path ?query #fragment` and every page number `p ≥ 1`,
`get_page_url` succeeds; re-parsing its result gives the same scheme,
netloc, path, params and fragment as re-parsing the input, and a query
that parses to the query dict of the input with `page` overwritten to the
single value `str(p)` — every other parameter that `parse_qs` extracts from
the input query keeps its values and order, but parameters that `parse_qs`
drops (blank values, pieces without `=`) are lost, which is where the
original claim fails. -/
theorem page_url_rewrites_page (nfkc : List Char → List Char)
    (scheme netloc path query fragment : String)
    (p : Int) (hw : WfURL scheme netloc path query fragment) (hp : 1 ≤ p) :
    ∃ res r r2,
      urlparse nfkc (renderURL scheme netloc path query fragment) = .ok r ∧
      get_page_url nfkc (renderURL scheme netloc path query fragment) p
        = .ok res ∧
      urlparse nfkc res = .ok r2 ∧
      r.scheme = scheme ∧ r.netloc = netloc ∧ r.query = query ∧
      r.fragment = fragment ∧
      r2.scheme = r.scheme ∧ r2.netloc = r.netloc ∧ r2.path = r.path ∧
      r2.params = r.params ∧ r2.fragment = r.fragment ∧
      parse_qs r2.query = setKeyStr (parse_qs query) "page" [toString p] := by
  have halpha : ∀ c, scheme.toList.head? = some c → c.isAlpha = true :=
    fun c hc => hw.scheme_alpha c (head_mem_take1 hc)
  have hr : urlparse nfkc (renderURL scheme netloc path query fragment)
      = .ok ⟨scheme, netloc, String.mk (paramsOf scheme path.toList).1,
          String.mk (paramsOf scheme path.toList).2, query, fragment⟩ :=
    urlparse_compute nfkc scheme.toList netloc.toList path.toList
      query.toList fragment.toList true hw.scheme_ne halpha hw.scheme_ok
      hw.scheme_lower hw.netloc_ok hw.path_slash hw.path_ok hw.query_ok
      hw.frag_ok (fun h => Bool.noConfusion h)
  have hget : get_page_url nfkc (renderURL scheme netloc path query fragment)
      p
      = .ok (urlunparse ⟨scheme, netloc,
          String.mk (paramsOf scheme path.toList).1,
          String.mk (paramsOf scheme path.toList).2,
          urlencode (setKey (strsOf (parse_qs query)) "page" (QVal.int p)),
          fragment⟩) := by
    unfold get_page_url
    rw [hr]
  have hres : urlunparse ⟨scheme, netloc,
      String.mk (paramsOf scheme path.toList).1,
      String.mk (paramsOf scheme path.toList).2,
      urlencode (setKey (strsOf (parse_qs query)) "page" (QVal.int p)),
      fragment⟩
      = urlunsplit scheme netloc (String.mk (path2Of scheme path.toList))
          (urlencode (setKey (strsOf (parse_qs query)) "page" (QVal.int p)))
          fragment :=
    urlunparse_eq scheme netloc _ fragment path.toList
  have hqne : (urlencode (setKey (strsOf (parse_qs query)) "page"
      (QVal.int p))).toList ≠ [] :=
    urlencode_setKey_int_ne_nil (strsOf (parse_qs query)) "page" p
  have hqok := urlencode_query_ok (setKey (strsOf (parse_qs query)) "page"
    (QVal.int p))
  have hp2slash := path2_take1 scheme path.toList hw.path_slash
  have hp2ok : ∀ c ∈ path2Of scheme path.toList,
      c ≠ '?' ∧ c ≠ '#' ∧ clean c = true := by
    intro c hc
    rcases path2_chars scheme path.toList c hc with h | h
    · exact hw.path_ok c h
    · subst h
      exact ⟨by decide, by decide, by decide⟩
  by_cases hC : netloc.toList ≠ [] ∨ (scheme.toList ≠ []
      ∧ uses_netloc.contains scheme = true
      ∧ (path2Of scheme path.toList).take 2 ≠ ['/', '/'])
  · have hsplitres := urlunsplit_toList_net scheme netloc
      (String.mk (path2Of scheme path.toList))
      (urlencode (setKey (strsOf (parse_qs query)) "page" (QVal.int p)))
      fragment hw.scheme_ne hqne hp2slash hC
    have hr2 : urlparse nfkc (urlunsplit scheme netloc
        (String.mk (path2Of scheme path.toList))
        (urlencode (setKey (strsOf (parse_qs query)) "page" (QVal.int p)))
        fragment)
        = .ok ⟨scheme, netloc,
            String.mk (paramsOf scheme (path2Of scheme path.toList)).1,
            String.mk (paramsOf scheme (path2Of scheme path.toList)).2,
            urlencode (setKey (strsOf (parse_qs query)) "page" (QVal.int p)),
            fragment⟩ := by
      rw [string_eq_of_toList hsplitres]
      exact urlparse_compute nfkc scheme.toList netloc.toList
        (path2Of scheme path.toList)
        (urlencode (setKey (strsOf (parse_qs query)) "page"
          (QVal.int p))).toList
        fragment.toList true hw.scheme_ne halpha hw.scheme_ok hw.scheme_lower
        hw.netloc_ok hp2slash hp2ok hqok hw.frag_ok
        (fun h => Bool.noConfusion h)
    rw [paramsOf_stable scheme path.toList] at hr2
    exact ⟨_, _, _, hr, hget.trans (congrArg Except.ok hres), hr2, rfl, rfl,
      rfl, rfl, rfl, rfl, rfl, rfl, rfl, parse_qs_urlencode_page query p hp⟩
  · have hnetl : netloc.toList = [] := by
      by_contra hne
      exact hC (Or.inl hne)
    have hcont : ¬(scheme.toList ≠ [] ∧ uses_netloc.contains scheme = true
        ∧ (String.mk (path2Of scheme path.toList)).toList.take 2
            ≠ ['/', '/']) :=
      fun h => hC (Or.inr h)
    have hnodsl : ¬ (path2Of scheme path.toList).take 2 = ['/', '/'] :=
      path2_take2 scheme path.toList (hw.no_dslash hnetl)
    have hsplitres := urlunsplit_toList_nonet scheme netloc
      (String.mk (path2Of scheme path.toList))
      (urlencode (setKey (strsOf (parse_qs query)) "page" (QVal.int p)))
      fragment hnetl hw.scheme_ne hqne hcont
    have hr2 : urlparse nfkc (urlunsplit scheme netloc
        (String.mk (path2Of scheme path.toList))
        (urlencode (setKey (strsOf (parse_qs query)) "page" (QVal.int p)))
        fragment)
        = .ok ⟨scheme, String.mk [],
            String.mk (paramsOf scheme (path2Of scheme path.toList)).1,
            String.mk (paramsOf scheme (path2Of scheme path.toList)).2,
            urlencode (setKey (strsOf (parse_qs query)) "page" (QVal.int p)),
            fragment⟩ := by
      rw [string_eq_of_toList hsplitres]
      exact urlparse_compute nfkc scheme.toList []
        (path2Of scheme path.toList)
        (urlencode (setKey (strsOf (parse_qs query)) "page"
          (QVal.int p))).toList
        fragment.toList false hw.scheme_ne halpha hw.scheme_ok hw.scheme_lower
        (by simp) hp2slash hp2ok hqok hw.frag_ok
        (fun _ => ⟨rfl, hnodsl⟩)
    rw [paramsOf_stable scheme path.toList] at hr2
    exact ⟨_, _, _, hr, hget.trans (congrArg Except.ok hres), hr2, rfl, rfl,
      rfl, rfl, rfl, (string_eq_of_toList hnetl).symm, rfl, rfl, rfl,
      parse_qs_urlencode_page query p hp⟩
/-- Witness for C4: the concrete URL `http://x/a?a=1&a=2` with page 5 (the
netloc `x` is ASCII, so any NFKC oracle works; `id` is passed). -/
theorem page_url_rewrites_page_witness :
    ∃ res r r2,
      urlparse id (renderURL "http" "x" "/a" "a=1&a=2" "") = .ok r ∧
      get_page_url id (renderURL "http" "x" "/a" "a=1&a=2" "") 5 = .ok res ∧
      urlparse id res = .ok r2 ∧
      r.scheme = "http" ∧ r.netloc = "x" ∧ r.query = "a=1&a=2" ∧
      r.fragment = "" ∧
      r2.scheme = r.scheme ∧ r2.netloc = r.netloc ∧ r2.path = r.path ∧
      r2.params = r.params ∧ r2.fragment = r.fragment ∧
      parse_qs r2.query
        = setKeyStr (parse_qs "a=1&a=2") "page" [toString (5 : Int)] :=
  page_url_rewrites_page id "http" "x" "/a" "a=1&a=2" "" 5
    ⟨by decide, by decide, by decide, by decide, by decide, by decide,
     by decide, by decide, by decide, by decide⟩ (by decide)

/-- Modelled from the spec: "query strings use standard `&`/`=` encoding
with percent-escaping" — the query parameters of a query string read at
face value, one `name=value` pair per `&`-separated piece (a piece without
`=` is a name with an empty value). -/
def rawQueryPairs (qs : String) : List (String × String) :=
  (pySplit '&' qs.toList).map (fun nv =>
    match breakAt '=' nv with
    | (n, none) => (String.mk n, "")
    | (n, some v) => (String.mk n, String.mk v))

/-- C4 counterexample: the URL `http://x/?a=` carries the query parameter
`a` (with an empty value), but `get_page_url` silently drops it — the
result `http://x/?page=1` has no parameter `a` at all, so "every other
query parameter of u is preserved" fails: `parse_qs` discards parameters
with blank values before the query is re-encoded.  (The netloc `x` is
ASCII, so the NFKC oracle is never consulted; `id` is passed.) -/
theorem page_url_drops_blank_param :
    ("a", "") ∈ rawQueryPairs "a=" ∧
    get_page_url id "http://x/?a=" 1 = .ok "http://x/?page=1" ∧
    ∀ pr ∈ rawQueryPairs "page=1", pr.1 ≠ "a" := by
  refine ⟨by decide, by rfl, by decide⟩

